import Mathlib

/-
Verification of the audio-analysis engine in src/lib/audio-analyzer.js.

The engine is embedded shallowly over exact rational arithmetic:
- sample buffers are total functions `ℕ → ℚ` together with an explicit length;
- the transcendental tables of the source (the twiddle-factor cache holding
  `Math.cos`/`Math.sin` of `-2*pi*i/N`, the Hann window coefficients, and
  `Math.sqrt`) are passed as explicit function parameters, since their values
  are irrational; every theorem below holds for arbitrary values of these
  parameters, hence in particular for the real cosine/sine/sqrt used by the
  source;
- the in-place loops of the source become folds over `List.range`, and the
  mutable `Float32Array` state of the FFT becomes a total function
  `ℕ → ℚ × ℚ` (real part, imaginary part);
- NaN outcomes of the source (the `0/0` of a degenerate band bin range at
  line 262, the `0/0` RMS of an empty frame span at line 272) are modelled
  explicitly: band and energy values are `Option ℚ`, with `none` standing for
  NaN; thrown RangeErrors (the negative beat-frame count allocated at line 331
  for buffers under 1024 samples, the infinite frame count allocated at
  line 218 for sample rate 0) are reflected in the statements' hypotheses and,
  for the progress trace, in the truncated sequence of delivered values.
-/

set_option maxHeartbeats 1000000

namespace AudioAnalyzer

/-- `reverseBits(n, bits)` (audio-analyzer.js lines 106-113): `bits` iterations
of `result = (result << 1) | (n & 1); n >>= 1`, with accumulator `acc`. -/
def reverseBitsAux : ℕ → ℕ → ℕ → ℕ
  | _, 0, acc => acc
  | n, b + 1, acc => reverseBitsAux (n / 2) b (acc * 2 + n % 2)

/-- `reverseBits(n, bits)` with the source's initial `result = 0`. -/
def reverseBits (n bits : ℕ) : ℕ := reverseBitsAux n bits 0

/-- One swap of the bit-reversal permutation loop: exchange entries `i` and `j`
of the (real, imag) state. -/
def swapAt (i j : ℕ) (st : ℕ → ℚ × ℚ) : ℕ → ℚ × ℚ :=
  fun k => if k = i then st j else if k = j then st i else st k

/-- The bit-reversal permutation loop of `fft` (lines 62-75): for each
`i < N`, with `j = reverseBits i bits`, swap entries `i` and `j` when `j > i`. -/
def bitrevPerm (N bits : ℕ) (st : ℕ → ℚ × ℚ) : ℕ → ℚ × ℚ :=
  (List.range N).foldl
    (fun s i => if i < reverseBits i bits then swapAt i (reverseBits i bits) s else s) st

/-- One butterfly of the Cooley-Tukey loop (lines 91-97): with twiddle values
`c`, `s` and indices `e = evenIdx`, `o = oddIdx`, compute
`t = (c*re[o] - s*im[o], s*re[o] + c*im[o])` from the old state and write
`st[o] := st[e] - t`, `st[e] := st[e] + t`. -/
def butterfly (c s : ℚ) (e o : ℕ) (st : ℕ → ℚ × ℚ) : ℕ → ℚ × ℚ :=
  let tR := c * (st o).1 - s * (st o).2
  let tI := s * (st o).1 + c * (st o).2
  fun k =>
    if k = o then ((st e).1 - tR, (st e).2 - tI)
    else if k = e then ((st e).1 + tR, (st e).2 + tI)
    else st k

/-- The inner `j` loop of `fft` (lines 83-98) for one block starting at
`base = i`, with `half = halfSize` and twiddle stride `step = N / size`:
butterflies at `(base + j, base + j + half)` with twiddle index `j * step`. -/
def innerLoop (cosF sinF : ℕ → ℚ) (step half base : ℕ) (st : ℕ → ℚ × ℚ) : ℕ → ℚ × ℚ :=
  (List.range half).foldl
    (fun s j => butterfly (cosF (j * step)) (sinF (j * step)) (base + j) (base + j + half) s) st

/-- The middle `i` loop of `fft` (line 82): blocks start at `i = b * size` for
`b < N / size`. -/
def stageLoop (cosF sinF : ℕ → ℚ) (N size : ℕ) (st : ℕ → ℚ × ℚ) : ℕ → ℚ × ℚ :=
  (List.range (N / size)).foldl
    (fun s b => innerLoop cosF sinF (N / size) (size / 2) (b * size) s) st

/-- `fft(real, imag)` (lines 57-101): bit-reversal permutation followed by the
stage loop `for (size = 2; size <= N; size *= 2)`, i.e. sizes `2^(t+1)` for
`t < log2 N` (for the power-of-two sizes the source is called with,
`bits = Math.log2 N = Nat.log2 N`).  `cosF i`/`sinF i` stand for the cached
twiddle factors `Math.cos(-2*pi*i/N)` / `Math.sin(-2*pi*i/N)`. -/
def fftState (cosF sinF : ℕ → ℚ) (N : ℕ) (st : ℕ → ℚ × ℚ) : ℕ → ℚ × ℚ :=
  (List.range (Nat.log2 N)).foldl
    (fun s t => stageLoop cosF sinF N (2 ^ (t + 1)) s)
    (bitrevPerm N (Nat.log2 N) st)

/-- `computeFFT(data)` (lines 119-137) up to the final square root: the source
returns `magnitudes[k] = sqrt(re[k]^2 + im[k]^2) / N`; this definition returns
the exact rational `re[k]^2 + im[k]^2`, and the theorems below state the
magnitude as `Real.sqrt` of it divided by `N`.  The input is copied into the
real array, the imaginary array starts at zero. -/
def computeFFTSq (cosF sinF : ℕ → ℚ) (data : ℕ → ℚ) (N k : ℕ) : ℚ :=
  let st := fftState cosF sinF N (fun i => if i < N then (data i, 0) else (0, 0))
  (st k).1 ^ 2 + (st k).2 ^ 2

/-- List form of `computeFFT` (lines 119-137): the returned magnitude array has
`N / 2` entries, `N` being the input length; entry `k` holds the squared
magnitude `re[k]^2 + im[k]^2` (the source stores its square root over `N`).
The source contains no input validation and no throw statement on any path,
so this embedding is a total function. -/
def computeFFTSqList (cosF sinF : ℕ → ℚ) (data : List ℚ) : List ℚ :=
  (List.range (data.length / 2)).map
    (computeFFTSq cosF sinF (fun i => data.getD i 0) data.length)

/-- The impulse input: 1 at index 0, 0 elsewhere. -/
def impulse : ℕ → ℚ := fun i => if i = 0 then 1 else 0

/-- The state whose first `m` entries are `(1, 0)` and the rest `(0, 0)`:
the invariant of the impulse-input FFT run. -/
def indState (m : ℕ) : ℕ → ℚ × ℚ := fun k => if k < m then (1, 0) else (0, 0)

/- ------------------------------------------------------------------ -/
/- Helper lemmas for the impulse FFT run                              -/
/- ------------------------------------------------------------------ -/

theorem foldl_fixed {α β : Type} (f : α → β → α) (a : α) (l : List β)
    (h : ∀ b ∈ l, f a b = a) : l.foldl f a = a := by
  induction l with
  | nil => rfl
  | cons x xs ih =>
      simp only [List.foldl_cons]
      rw [h x (List.mem_cons_self x xs)]
      exact ih fun b hb => h b (List.mem_cons_of_mem x hb)

theorem reverseBits_zero (bits : ℕ) : reverseBits 0 bits = 0 := by
  have h : ∀ b, reverseBitsAux 0 b 0 = 0 := by
    intro b
    induction b with
    | zero => rfl
    | succ b ih =>
        show reverseBitsAux 0 b (0 * 2 + 0 % 2) = 0
        simpa using ih
  exact h bits

/-- Swapping two positions that both hold `(0, 0)` in the impulse state leaves
the state unchanged. -/
theorem swapAt_indState_one (i j : ℕ) (hi : i ≠ 0) (hj : j ≠ 0) :
    swapAt i j (indState 1) = indState 1 := by
  funext k
  unfold swapAt indState
  by_cases hki : k = i
  · subst hki
    simp [hi, hj, Nat.lt_one_iff]
  · by_cases hkj : k = j
    · subst hkj
      simp [hi, hj, Nat.lt_one_iff]
    · simp [hki, hkj]

/-- The bit-reversal permutation fixes the impulse state: index 0 reverses to
itself, so every swap the loop performs exchanges two zero entries. -/
theorem bitrevPerm_indState_one (N bits : ℕ) :
    bitrevPerm N bits (indState 1) = indState 1 := by
  unfold bitrevPerm
  apply foldl_fixed
  intro i _
  by_cases h : i < reverseBits i bits
  · have hi : i ≠ 0 := by
      intro h0
      subst h0
      rw [reverseBits_zero] at h
      exact absurd h (lt_irrefl 0)
    have hj : reverseBits i bits ≠ 0 := by
      intro h0
      rw [h0] at h
      exact absurd h (Nat.not_lt_zero i)
    simp only [h, if_true]
    exact swapAt_indState_one i (reverseBits i bits) hi hj
  · simp [h]

/-- A butterfly whose even and odd entries are both `(0, 0)` leaves the state
unchanged (the twiddle products vanish). -/
theorem butterfly_zero (c s : ℚ) (e o : ℕ) (st : ℕ → ℚ × ℚ)
    (he : st e = (0, 0)) (ho : st o = (0, 0)) :
    butterfly c s e o st = st := by
  funext k
  unfold butterfly
  simp only [he, ho]
  by_cases hko : k = o
  · subst hko
    simp [ho]
  · by_cases hke : k = e
    · subst hke
      simp [he]
    · simp [hko, hke]

/-- The butterfly at `(j, j + half)` applied to the state whose first
`half + j` entries are `(1, 0)` extends the block of ones by one: the odd
entry is `(0, 0)`, so the transfer term vanishes and the even value is copied. -/
theorem butterfly_ind (c s : ℚ) (j half : ℕ) (hj : j < half) :
    butterfly c s j (j + half) (indState (half + j)) = indState (half + j + 1) := by
  funext k
  unfold butterfly indState
  have ho : ¬ j + half < half + j := by omega
  have he : j < half + j := by omega
  simp only [ho, if_false, he, if_true]
  by_cases hko : k = j + half
  · subst hko
    have h1 : j + half < half + j + 1 := by omega
    simp [h1]
  · by_cases hke : k = j
    · subst hke
      have h1 : k < half + k + 1 := by omega
      simp [hko, h1]
    · simp only [hko, if_false, hke, if_false]
      by_cases hk : k < half + j
      · have h1 : k < half + j + 1 := by omega
        simp [hk, h1]
      · have h1 : ¬ k < half + j + 1 := by omega
        simp [hk, h1]

/-- The inner loop of the first block (`base = 0`) of a stage on the impulse
invariant: the `half` butterflies duplicate the block of ones, taking
`indState half` to `indState (2 * half)`, for any twiddle values. -/
theorem innerLoop_base_zero (cosF sinF : ℕ → ℚ) (step half : ℕ) :
    innerLoop cosF sinF step half 0 (indState half) = indState (2 * half) := by
  unfold innerLoop
  have key : ∀ j, j ≤ half →
      (List.range j).foldl
        (fun s j => butterfly (cosF (j * step)) (sinF (j * step)) (0 + j) (0 + j + half) s)
        (indState half) = indState (half + j) := by
    intro j
    induction j with
    | zero => intro _; simp [indState]
    | succ j ih =>
        intro hj
        rw [List.range_succ, List.foldl_append, ih (Nat.le_of_succ_le hj)]
        simp only [List.foldl_cons, List.foldl_nil, Nat.zero_add]
        exact butterfly_ind _ _ j half (Nat.lt_of_succ_le hj)
  have h := key half (le_refl half)
  rw [h, two_mul]

/-- The inner loop of a block whose base lies at or beyond the block of ones
fixes the state: every touched entry is `(0, 0)`. -/
theorem innerLoop_fixed (cosF sinF : ℕ → ℚ) (step half base m : ℕ) (hbase : m ≤ base) :
    innerLoop cosF sinF step half base (indState m) = indState m := by
  unfold innerLoop
  apply foldl_fixed
  intro j _
  apply butterfly_zero
  · unfold indState
    have h : ¬ base + j < m := by omega
    simp [h]
  · unfold indState
    have h : ¬ base + j + half < m := by omega
    simp [h]

/-- One full stage of the impulse run: with `N = 2 ^ s` and `size = 2 ^ (t+1)`
(`t < s`), block 0 doubles the block of ones and the remaining blocks fix the
state, so `indState (2 ^ t)` becomes `indState (2 ^ (t + 1))`. -/
theorem stageLoop_impulse (cosF sinF : ℕ → ℚ) (s t : ℕ) (ht : t < s) :
    stageLoop cosF sinF (2 ^ s) (2 ^ (t + 1)) (indState (2 ^ t)) = indState (2 ^ (t + 1)) := by
  unfold stageLoop
  have hsize : (2 : ℕ) ^ (t + 1) / 2 = 2 ^ t := by
    rw [pow_succ]
    exact Nat.mul_div_cancel _ (by norm_num)
  have hblocks : (2 : ℕ) ^ s / 2 ^ (t + 1) = 2 ^ (s - (t + 1)) := by
    exact Nat.pow_div ht (by norm_num)
  have hpos : 0 < (2 : ℕ) ^ (s - (t + 1)) := Nat.pos_pow_of_pos _ (by norm_num)
  obtain ⟨B, hB⟩ : ∃ B, (2 : ℕ) ^ (s - (t + 1)) = B + 1 :=
    ⟨2 ^ (s - (t + 1)) - 1, by omega⟩
  rw [hblocks, hsize, hB, List.range_succ_eq_map]
  simp only [List.foldl_cons, Nat.zero_mul]
  rw [innerLoop_base_zero, ← pow_succ']
  rw [List.foldl_map]
  apply foldl_fixed
  intro b _
  apply innerLoop_fixed
  calc 2 ^ (t + 1) = 1 * 2 ^ (t + 1) := (one_mul _).symm
    _ ≤ (b + 1) * 2 ^ (t + 1) := Nat.mul_le_mul_right _ (by omega)
    _ = Nat.succ b * 2 ^ (t + 1) := rfl

/-- The full stage iteration of the impulse run: starting from the impulse
state, after all `s` stages every one of the first `2 ^ s` entries is `(1, 0)`. -/
theorem fftState_impulse (cosF sinF : ℕ → ℚ) (s : ℕ) :
    fftState cosF sinF (2 ^ s) (fun i => if i < 2 ^ s then (impulse i, 0) else (0, 0)) =
      indState (2 ^ s) := by
  have hlog : Nat.log2 (2 ^ s) = s := by
    rw [Nat.log2_eq_log_two]
    exact Nat.log_pow (by norm_num) s
  have hinit : (fun i => if i < 2 ^ s then (impulse i, (0 : ℚ)) else (0, 0)) = indState 1 := by
    funext i
    unfold impulse indState
    by_cases hi : i = 0
    · subst hi
      simp [Nat.pos_pow_of_pos, Nat.lt_one_iff]
    · have h1 : ¬ i < 1 := by omega
      by_cases h2 : i < 2 ^ s <;> simp [hi, h1, h2]
  unfold fftState
  rw [hlog, hinit, bitrevPerm_indState_one]
  have key : ∀ u, u ≤ s →
      (List.range u).foldl (fun st t => stageLoop cosF sinF (2 ^ s) (2 ^ (t + 1)) st)
        (indState 1) = indState (2 ^ u) := by
    intro u
    induction u with
    | zero => intro _; simp [indState]
    | succ u ih =>
        intro hu
        rw [List.range_succ, List.foldl_append, ih (Nat.le_of_succ_le hu)]
        simp only [List.foldl_cons, List.foldl_nil]
        exact stageLoop_impulse cosF sinF s u (Nat.lt_of_succ_le hu)
  exact key s (le_refl s)

/-- C4: for every power-of-two transform size `N = 2 ^ s`, running the spectral
transform on the impulse input (1 at index 0, 0 elsewhere) yields a magnitude
spectrum equal to the constant `1 / N` in every one of the `N / 2` bins — here
exactly, in exact arithmetic, for arbitrary twiddle-factor values (hence in
particular for the real cosine/sine tables of the source). -/
theorem c4_impulse_flat_spectrum (cosF sinF : ℕ → ℚ) (s k : ℕ) (hk : k < 2 ^ s / 2) :
    Real.sqrt ((computeFFTSq cosF sinF impulse (2 ^ s) k : ℚ) : ℝ) / ((2 ^ s : ℕ) : ℝ)
      = 1 / ((2 ^ s : ℕ) : ℝ) := by
  have hsq : computeFFTSq cosF sinF impulse (2 ^ s) k = 1 := by
    unfold computeFFTSq
    rw [fftState_impulse]
    unfold indState
    have hk2 : k < 2 ^ s := lt_of_lt_of_le hk (Nat.div_le_self _ _)
    simp [hk2]
  rw [hsq]
  norm_num

/-- Witness for C4 at `N = 4`, bin 1, with zero twiddle tables. -/
theorem c4_impulse_flat_spectrum_witness :
    1 < 2 ^ 2 / 2 ∧
    Real.sqrt ((computeFFTSq (fun _ => 0) (fun _ => 0) impulse (2 ^ 2) 1 : ℚ) : ℝ) /
        ((2 ^ 2 : ℕ) : ℝ) = 1 / ((2 ^ 2 : ℕ) : ℝ) :=
  ⟨by norm_num, c4_impulse_flat_spectrum (fun _ => 0) (fun _ => 0) 2 1 (by norm_num)⟩

/-- C3: the source's `fft`/`computeFFT` contain no validation and no throw on
any path; on the zero-length input (transform size `N = 0`, an explicit
precondition violation per the spec) the transform runs to completion and
returns an empty magnitude array instead of failing fast with an error. -/
theorem c3_zero_length_returns_normally (cosF sinF : ℕ → ℚ) :
    computeFFTSqList cosF sinF [] = [] := rfl

/- ------------------------------------------------------------------ -/
/- Band energy extractor: analyzeFrequencyAndEnergy (lines 212-287)   -/
/- ------------------------------------------------------------------ -/

/-- `numSamples = Math.floor(duration * SAMPLE_RATE)` (lines 213-214) with
`duration = len / sampleRate` and `SAMPLE_RATE = 30`: exactly `⌊30·len/sr⌋`
for `sr > 0`.  At `sr = 0` the source computes an infinite/NaN frame count and
`new Array(numSamples)` (line 218) throws a RangeError before any frame is
processed; this ℕ embedding returns 0 there, so every theorem about the
extractor carries a `0 < sr` hypothesis (or is vacuous at `sr = 0`). -/
def bandNumSamples (len sr : ℕ) : ℕ := 30 * len / sr

/-- `samplesPerFrame = Math.floor(channelData.length / numSamples)` (line 215). -/
def bandSpf (len sr : ℕ) : ℕ := len / bandNumSamples len sr

/-- `copyLen = Math.min(fftSize, channelData.length - startSample)` (line 248)
for the frame starting at `startSample = frame * samplesPerFrame`; natural
subtraction matches the source, where a negative value makes the copy loop
run zero times. -/
def bandCopyLen (len sr f : ℕ) : ℕ := min 2048 (len - f * bandSpf len sr)

/-- Source index `j` is copied into frame `f`'s transform buffer by the loop at
lines 249-251 (`frameData[i] = channelData[startSample + i] * window[i]` for
`i < copyLen`). -/
def bandFrameReads (len sr f j : ℕ) : Prop :=
  f * bandSpf len sr ≤ j ∧ j < f * bandSpf len sr + bandCopyLen len sr f

instance (len sr f j : ℕ) : Decidable (bandFrameReads len sr f j) := by
  unfold bandFrameReads
  infer_instance

/-- The windowed frame buffer of frame `f` (lines 247-251): zero-filled, then
the first `copyLen` entries hold `channelData[start + i] * window[i]`. -/
def bandFrameData (window data : ℕ → ℚ) (len sr f : ℕ) : ℕ → ℚ :=
  fun i => if i < bandCopyLen len sr f then data (f * bandSpf len sr + i) * window i else 0

/-- Magnitude bin `k` of frame `f` (line 254 via `computeFFT`, line 133):
`sqrt(re^2 + im^2) / N` with `N = 2048`; `sqrtF` stands for `Math.sqrt`. -/
def bandMagnitude (cosF sinF window : ℕ → ℚ) (sqrtF : ℚ → ℚ) (data : ℕ → ℚ)
    (len sr f k : ℕ) : ℚ :=
  sqrtF (computeFFTSq cosF sinF (bandFrameData window data len sr f) 2048 k) / 2048

/-- `bandBins[band].start = Math.floor(low / binFrequency)` (line 233), with
`binFrequency = sampleRate / fftSize` (line 227). -/
def bandBinStart (sr low : ℕ) : ℕ := (⌊(low : ℚ) / ((sr : ℚ) / 2048)⌋).toNat

/-- `bandBins[band].end = Math.min(Math.ceil(high / binFrequency), binCount - 1)`
(line 234), `binCount = 1024`. -/
def bandBinEnd (sr high : ℕ) : ℕ := min (⌈(high : ℚ) / ((sr : ℚ) / 2048)⌉).toNat 1023

/-- The divisor `end - start + 1` of line 262, as the source computes it, over
the clamped bin range of one band. -/
def bandDivisor (sr low high : ℕ) : ℚ :=
  (bandBinEnd sr high : ℚ) - (bandBinStart sr low : ℚ) + 1

/-- One band energy of one frame (lines 257-264): sum the squared magnitudes
over the inclusive bin range, divide by `end - start + 1`, apply `sqrt`, scale
by 4 and clamp at 1.  When the clamped bin range makes the divisor zero
(`bandBinStart = bandBinEnd + 1`, e.g. the high band at sample rate 4000,
where `start = 1024` and the clamp gives `end = 1023`), the sum is 0 and the
source computes `Math.sqrt(0/0) = NaN`, which `Math.min(1, NaN * 4)`
propagates into the stored series: `none` models that NaN.  For a negative
divisor (`bandBinStart > bandBinEnd + 1`) the source computes
`Math.sqrt(0/negative) = Math.sqrt(-0) = -0` and stores `-0`, numerically
zero, which the rational division below also yields. -/
def bandValue (cosF sinF window : ℕ → ℚ) (sqrtF : ℚ → ℚ) (data : ℕ → ℚ)
    (len sr f low high : ℕ) : Option ℚ :=
  let start := bandBinStart sr low
  let stop := bandBinEnd sr high
  let sum := ((List.range (stop + 1 - start)).map
    (fun i => bandMagnitude cosF sinF window sqrtF data len sr f (start + i) ^ 2)).sum
  if bandDivisor sr low high = 0 then none
  else some (min 1 (sqrtF (sum / bandDivisor sr low high) * 4))

/-- The RMS loudness of one frame (lines 266-272): computed from the raw
(unwindowed) samples of the frame, `sqrt(Σ sample² / copyLen)`, scaled by 3
and clamped at 1.  A zero `copyLen` would make the source compute
`Math.sqrt(0/0) = NaN`, modelled by `none`; `bandCopyLen_pos` below shows this
cannot happen for a real frame when the sample rate is positive. -/
def energyValue (sqrtF : ℚ → ℚ) (data : ℕ → ℚ) (len sr f : ℕ) : Option ℚ :=
  let rms := ((List.range (bandCopyLen len sr f)).map
    (fun i => data (f * bandSpf len sr + i) ^ 2)).sum
  if bandCopyLen len sr f = 0 then none
  else some (min 1 (sqrtF (rms / (bandCopyLen len sr f : ℚ)) * 3))

/-- The body of the max-scan of `normalizeArray` (lines 311-314) on a plain
number: `if (arr[i] > max) max = arr[i]`. -/
def maxStep (m x : ℚ) : ℚ := if m < x then x else m

/-- The max-scan step of `normalizeArray` over a possibly-NaN entry: the
comparison `arr[i] > max` is false for NaN, so a NaN entry leaves the running
maximum unchanged. -/
def maxStepN (m : ℚ) (x : Option ℚ) : ℚ :=
  match x with
  | none => m
  | some v => if m < v then v else m

/-- The max-scan of `normalizeArray` (lines 311-314), with the source's
initial `max = 0`, over a series that may hold NaN entries. -/
def arrayMaxN (l : List (Option ℚ)) : ℚ := l.foldl maxStepN 0

/-- `normalizeArray(arr)` (lines 310-320): divide every entry by the maximum,
skipping the divide entirely when the maximum is not positive.  A NaN entry
never becomes the maximum, and `NaN / max` stays NaN — `Option.map` models
both. -/
def normalizeArrayN (l : List (Option ℚ)) : List (Option ℚ) :=
  if 0 < arrayMaxN l then l.map (fun x => x.map (fun v => v / arrayMaxN l)) else l

/-- The five series returned by `analyzeFrequencyAndEnergy`; `none` entries
model the NaN values the source stores on the degenerate paths above. -/
structure FreqEnergy where
  sub : List (Option ℚ)
  bass : List (Option ℚ)
  mid : List (Option ℚ)
  high : List (Option ℚ)
  energy : List (Option ℚ)

/-- `analyzeFrequencyAndEnergy(channelData, sampleRate)` (lines 212-287):
per-frame band energies for the four fixed Hz ranges (sub 20-60, bass 60-250,
mid 250-2000, high 2000-20000) and the RMS loudness, each series normalized by
`normalizeArray` at the end. -/
def analyzeFrequencyAndEnergy (cosF sinF window : ℕ → ℚ) (sqrtF : ℚ → ℚ)
    (data : ℕ → ℚ) (len sr : ℕ) : FreqEnergy :=
  let ns := bandNumSamples len sr
  { sub := normalizeArrayN ((List.range ns).map
      (fun f => bandValue cosF sinF window sqrtF data len sr f 20 60))
    bass := normalizeArrayN ((List.range ns).map
      (fun f => bandValue cosF sinF window sqrtF data len sr f 60 250))
    mid := normalizeArrayN ((List.range ns).map
      (fun f => bandValue cosF sinF window sqrtF data len sr f 250 2000))
    high := normalizeArrayN ((List.range ns).map
      (fun f => bandValue cosF sinF window sqrtF data len sr f 2000 20000))
    energy := normalizeArrayN ((List.range ns).map
      (fun f => energyValue sqrtF data len sr f)) }

/- ------------------------------------------------------------------ -/
/- Beat detector framing: detectBeats (lines 325-356)                 -/
/- ------------------------------------------------------------------ -/

/-- `numFrames = Math.floor((channelData.length - frameSize) / hopSize)`
(line 328), `frameSize = 1024`, `hopSize = 512`.  For `len ≥ 1024` this ℕ
value is exactly the source's count.  For `len < 1024` the source's count is
negative and `new Float32Array(numFrames)` (line 331) throws a RangeError
before any frame is processed, aborting the whole analysis; the ℕ embedding
returns 0 there, a region in which theorems about the detector's frames are
vacuous (`f < beatNumFrames len` is unsatisfiable) and the progress trace
(`progressTrace` below) models the aborted run explicitly. -/
def beatNumFrames (len : ℕ) : ℕ := (len - 1024) / 512

/-- Source index `j` is read into beat frame `f`'s buffer by the loop at lines
354-356 (`frameData[i] = (channelData[startSample + i] || 0) * window[i]`,
`i < 1024`, `startSample = frame * hopSize`). -/
def beatFrameReads (f j : ℕ) : Prop := f * 512 ≤ j ∧ j < f * 512 + 1024

instance (f j : ℕ) : Decidable (beatFrameReads f j) := by
  unfold beatFrameReads
  infer_instance

/-- C1 counterexample: for an 8192-sample buffer at 4096 Hz the extractor
builds 60 frames spaced `samplesPerFrame = 136` apart, but each frame copies
2048 (not 136) consecutive samples, so source sample 200 is read into both
frame 0 and frame 1 — frames overlap and a sample contributes to more than one
frame's spectrum, contradicting the claim as stated. -/
theorem c1_overlapping_frames_cex :
    bandNumSamples 8192 4096 = 60 ∧ bandSpf 8192 4096 = 136 ∧
    bandCopyLen 8192 4096 0 = 2048 ∧
    bandFrameReads 8192 4096 0 200 ∧ bandFrameReads 8192 4096 1 200 := by
  decide

/-- C1 (amended): the extractor builds `⌊duration · 30⌋` frames whose starts
are `samplesPerFrame = ⌊totalSamples / frameCount⌋` apart, but frame `f` reads
`min(2048, totalSamples - f·samplesPerFrame)` consecutive samples (zero-padding
only the remainder of the 2048-sample transform buffer); whenever
`samplesPerFrame < 2048`, consecutive frames overlap: the first sample of frame
`f + 1` is also read by frame `f`. -/
theorem c1_frame_layout (len sr f : ℕ) (hf : f + 1 < bandNumSamples len sr) :
    (∀ j, bandFrameReads len sr f j ↔
      f * bandSpf len sr ≤ j ∧ j < f * bandSpf len sr + min 2048 (len - f * bandSpf len sr)) ∧
    (bandSpf len sr < 2048 →
      bandFrameReads len sr f ((f + 1) * bandSpf len sr) ∧
      bandFrameReads len sr (f + 1) ((f + 1) * bandSpf len sr)) := by
  refine ⟨fun j => Iff.rfl, fun h2048 => ?_⟩
  have hlen : 1 ≤ len := by
    by_contra h
    have h0 : len = 0 := by omega
    rw [h0] at hf
    simp [bandNumSamples] at hf
  have hmul : bandNumSamples len sr * bandSpf len sr ≤ len := by
    unfold bandSpf
    rw [Nat.mul_comm]
    exact Nat.div_mul_le_self len (bandNumSamples len sr)
  have hkey : (f + 1) * bandSpf len sr < len := by
    rcases Nat.eq_zero_or_pos (bandSpf len sr) with h0 | hpos
    · rw [h0]
      omega
    · have h1 : (f + 2) * bandSpf len sr ≤ bandNumSamples len sr * bandSpf len sr :=
        Nat.mul_le_mul_right _ (by omega)
      have h2 : (f + 1) * bandSpf len sr < (f + 2) * bandSpf len sr :=
        (Nat.mul_lt_mul_right hpos).mpr (by omega)
      omega
  constructor
  · refine ⟨Nat.mul_le_mul_right _ (by omega), ?_⟩
    unfold bandCopyLen
    have hspf : (f + 1) * bandSpf len sr - f * bandSpf len sr = bandSpf len sr := by
      have : (f + 1) * bandSpf len sr = f * bandSpf len sr + bandSpf len sr := by ring
      omega
    have hlt : bandSpf len sr < min 2048 (len - f * bandSpf len sr) := by
      rw [lt_min_iff]
      refine ⟨h2048, ?_⟩
      have hfle : f * bandSpf len sr + bandSpf len sr = (f + 1) * bandSpf len sr := by ring
      omega
    omega
  · refine ⟨le_refl _, ?_⟩
    unfold bandCopyLen
    have hcl : 1 ≤ min 2048 (len - (f + 1) * bandSpf len sr) := by
      rw [le_min_iff]
      exact ⟨by norm_num, by omega⟩
    omega

/-- Witness for the amended C1 at the counterexample input: frames 0 and 1 of
the 8192-sample, 4096 Hz buffer share sample 136. -/
theorem c1_frame_layout_witness :
    0 + 1 < bandNumSamples 8192 4096 ∧
    ((∀ j, bandFrameReads 8192 4096 0 j ↔
        0 * bandSpf 8192 4096 ≤ j ∧
        j < 0 * bandSpf 8192 4096 + min 2048 (8192 - 0 * bandSpf 8192 4096)) ∧
     (bandSpf 8192 4096 < 2048 →
        bandFrameReads 8192 4096 0 ((0 + 1) * bandSpf 8192 4096) ∧
        bandFrameReads 8192 4096 (0 + 1) ((0 + 1) * bandSpf 8192 4096))) :=
  ⟨by decide, c1_frame_layout 8192 4096 0 (by decide)⟩

/-- C2 counterexample: for a 2048-sample buffer the beat detector processes
only `⌊(2048 - 1024)/512⌋ = 2` frames, covering samples 0..1535; sample 1536
belongs to no processed frame, and no zero-padded final frame exists —
contradicting the claim as stated. -/
theorem c2_uncovered_tail_cex :
    beatNumFrames 2048 = 2 ∧ 1536 < 2048 ∧
    ∀ f, f < beatNumFrames 2048 → ¬ beatFrameReads f 1536 := by
  decide

/-- C2 (amended): the beat detector processes exactly
`⌊(totalSamples - 1024)/512⌋` frames of 1024 samples at hop 512; every
processed frame lies entirely inside the buffer (so the `|| 0` zero-padding
guard never fires and no partial frame is processed), and every sample at
index `≥ 512·numFrames + 512` belongs to no processed frame. -/
theorem c2_frames_in_bounds (len f j : ℕ) (hf : f < beatNumFrames len) :
    f * 512 + 1024 ≤ len ∧
    (beatNumFrames len * 512 + 512 ≤ j → ¬ beatFrameReads f j) := by
  have hdiv : (f + 1) * 512 ≤ len - 1024 := by
    have h1 : f + 1 ≤ beatNumFrames len := hf
    unfold beatNumFrames at h1
    exact (Nat.le_div_iff_mul_le (by norm_num)).mp h1
  constructor
  · omega
  · intro hj hread
    unfold beatFrameReads at hread
    have h2 : f + 1 ≤ beatNumFrames len := hf
    have h3 : (f + 1) * 512 ≤ beatNumFrames len * 512 := Nat.mul_le_mul_right _ h2
    omega

/-- Witness for the amended C2 at the counterexample input. -/
theorem c2_frames_in_bounds_witness :
    1 < beatNumFrames 2048 ∧
    (1 * 512 + 1024 ≤ 2048 ∧
     (beatNumFrames 2048 * 512 + 512 ≤ 1600 → ¬ beatFrameReads 1 1600)) :=
  ⟨by decide, c2_frames_in_bounds 2048 1 1600 (by decide)⟩

/- ------------------------------------------------------------------ -/
/- Beat detector: detectBeats (lines 325-406), findPeaks (426-449)    -/
/- ------------------------------------------------------------------ -/

/-- The Hann-windowed beat frame buffer (lines 354-356):
`frameData[i] = (channelData[startSample + i] || 0) * window[i]` with
`startSample = frame * 512`; the `|| 0` turns an out-of-range read into 0. -/
def beatFrameData (window data : ℕ → ℚ) (len f : ℕ) : ℕ → ℚ :=
  fun i => (if f * 512 + i < len then data (f * 512 + i) else 0) * window i

/-- Magnitude bin `k` of beat frame `f` (line 358 via `computeFFT`):
`sqrt(re^2 + im^2) / N` with `N = 1024`. -/
def beatMagnitude (cosF sinF window : ℕ → ℚ) (sqrtF : ℚ → ℚ) (data : ℕ → ℚ)
    (len f k : ℕ) : ℚ :=
  sqrtF (computeFFTSq cosF sinF (beatFrameData window data len f) 1024 k) / 1024

/-- `magnitudes.slice(start, stop)` on the 512-entry magnitude array
(lines 361-363): JS `slice` clamps both indices to the array length and the
stop index is exclusive. -/
def sliceMagnitudes (mag : ℕ → ℚ) (start stop : ℕ) : List ℚ :=
  (List.range (min stop 512 - min start 512)).map (fun i => mag (min start 512 + i))

/-- `kickBins.start = Math.floor(40 / binFreq)` (line 342), with
`binFreq = sampleRate / frameSize` (line 339), `frameSize = 1024`. -/
def kickBinStart (sr : ℕ) : ℕ := (⌊(40 : ℚ) / ((sr : ℚ) / 1024)⌋).toNat

/-- `kickBins.end = Math.ceil(120 / binFreq)` (line 342). -/
def kickBinEnd (sr : ℕ) : ℕ := (⌈(120 : ℚ) / ((sr : ℚ) / 1024)⌉).toNat

/-- `snareBins.start = Math.floor(120 / binFreq)` (line 343). -/
def snareBinStart (sr : ℕ) : ℕ := (⌊(120 : ℚ) / ((sr : ℚ) / 1024)⌋).toNat

/-- `snareBins.end = Math.ceil(500 / binFreq)` (line 343). -/
def snareBinEnd (sr : ℕ) : ℕ := (⌈(500 : ℚ) / ((sr : ℚ) / 1024)⌉).toNat

/-- `hihatBins.start = Math.floor(5000 / binFreq)` (line 344). -/
def hihatBinStart (sr : ℕ) : ℕ := (⌊(5000 : ℚ) / ((sr : ℚ) / 1024)⌋).toNat

/-- `hihatBins.end = Math.min(Math.ceil(15000 / binFreq), frameSize / 2 - 1)`
(line 344). -/
def hihatBinEnd (sr : ℕ) : ℕ := min (⌈(15000 : ℚ) / ((sr : ℚ) / 1024)⌉).toNat 511

/-- `spectralFlux(current, previous)` (lines 411-421): sum of the positive
differences over the common length. -/
def spectralFlux (current previous : List ℚ) : ℚ :=
  (List.range (min current.length previous.length)).foldl
    (fun flux i =>
      let d := current.getD i 0 - previous.getD i 0
      if 0 < d then flux + d else flux) 0

/-- The band sub-spectrum of beat frame `f` (lines 361-363). -/
def beatSpectrum (cosF sinF window : ℕ → ℚ) (sqrtF : ℚ → ℚ) (data : ℕ → ℚ)
    (len : ℕ) (start stop f : ℕ) : List ℚ :=
  sliceMagnitudes (beatMagnitude cosF sinF window sqrtF data len f) start stop

/-- The flux signal of one band (lines 331-370): zero at frame 0 (no
predecessor — `prevSpectrum` is still null there), otherwise the spectral flux
against the previous frame's sub-spectrum. -/
def beatFlux (cosF sinF window : ℕ → ℚ) (sqrtF : ℚ → ℚ) (data : ℕ → ℚ)
    (len : ℕ) (start stop f : ℕ) : ℚ :=
  if f = 0 then 0
  else spectralFlux (beatSpectrum cosF sinF window sqrtF data len start stop f)
    (beatSpectrum cosF sinF window sqrtF data len start stop (f - 1))

/-- `findPeaks(signal, frameDuration, threshold)` (lines 426-449): for each
index `i` with a 20-frame margin on both ends, compute the 41-sample local
mean; `i` is a peak iff `signal[i]` exceeds
`max(threshold, 1.5 * localMean)` and both immediate neighbours; each peak is
reported as the timestamp `i * frameDuration`. -/
def findPeaks (signal : ℕ → ℚ) (len : ℕ) (frameDuration threshold : ℚ) : List ℚ :=
  ((List.range' 20 (len - 20 - 20)).filter (fun i =>
    decide (max threshold
        ((List.range 41).foldl (fun acc j => acc + signal (i - 20 + j)) 0 / 41 * (3/2))
          < signal i ∧
      signal (i - 1) < signal i ∧ signal (i + 1) < signal i))).map
    (fun (i : ℕ) => (i : ℚ) * frameDuration)

/-- The deduplication pass of `detectBeats` (lines 393-398): keep a beat iff
the kept list is empty or the beat is more than 0.05 s after the last kept
one. -/
def dedupBeats (beats : List ℚ) : List ℚ :=
  beats.foldl (fun acc b =>
    match acc.getLast? with
    | none => acc ++ [b]
    | some last => if 1/20 < b - last then acc ++ [b] else acc) []

/-- The four timelines returned by `detectBeats` (lines 400-405). -/
structure BeatTimelines where
  all : List ℚ
  kicks : List ℚ
  snares : List ℚ
  hihats : List ℚ

/-- `detectBeats(channelData, sampleRate)` (lines 325-406): per-band flux,
peak picking with thresholds 0.15 / 0.12 / 0.08, then merge: concatenate,
sort ascending and deduplicate within 50 ms. -/
def detectBeats (cosF sinF window : ℕ → ℚ) (sqrtF : ℚ → ℚ) (data : ℕ → ℚ)
    (len sr : ℕ) : BeatTimelines :=
  let nf := beatNumFrames len
  let fd : ℚ := 512 / (sr : ℚ)
  let kicks := findPeaks
    (beatFlux cosF sinF window sqrtF data len (kickBinStart sr) (kickBinEnd sr)) nf fd (3/20)
  let snares := findPeaks
    (beatFlux cosF sinF window sqrtF data len (snareBinStart sr) (snareBinEnd sr)) nf fd (3/25)
  let hihats := findPeaks
    (beatFlux cosF sinF window sqrtF data len (hihatBinStart sr) (hihatBinEnd sr)) nf fd (2/25)
  { all := dedupBeats (List.insertionSort (· ≤ ·) (kicks ++ snares ++ hihats))
    kicks := kicks
    snares := snares
    hihats := hihats }

/- ------------------------------------------------------------------ -/
/- BPM estimator: estimateBPM (lines 454-503)                         -/
/- ------------------------------------------------------------------ -/

/-- `Math.round` on the non-negative values produced by `estimateBPM`:
round half up. -/
def jsRound (q : ℚ) : ℤ := ⌊q + 1 / 2⌋

/-- The successive inter-beat intervals (lines 458-461). -/
def bpmIntervals (beats : List ℚ) : List ℚ :=
  (List.range (beats.length - 1)).map (fun i => beats.getD (i + 1) 0 - beats.getD i 0)

/-- `numBins = Math.ceil((maxBPM - minBPM) / resolution)` (line 467) with
`minBPM = 60`, `maxBPM = 200`, `resolution = 0.5`. -/
def bpmNumBins : ℕ := (⌈((200 : ℚ) - 60) / (1 / 2)⌉).toNat

/-- One histogram vote (lines 475-481): if the adjusted BPM lies in
`[60, 200]`, add 1 to bin `⌊(adjustedBPM - 60) / 0.5⌋` provided that bin index
is inside the histogram. -/
def addVote (hist : ℕ → ℚ) (adjustedBPM : ℚ) : ℕ → ℚ :=
  if 60 ≤ adjustedBPM ∧ adjustedBPM ≤ 200 then
    let bin := ⌊(adjustedBPM - 60) / (1 / 2)⌋
    if 0 ≤ bin ∧ bin < (bpmNumBins : ℤ) then
      fun k => if k = bin.toNat then hist k + 1 else hist k
    else hist
  else hist

/-- The votes of one interval (lines 470-483): non-positive intervals are
skipped; otherwise the tempo `60 / interval` votes at multipliers 0.5, 1, 2
(harmonic folding). -/
def voteInterval (hist : ℕ → ℚ) (interval : ℚ) : ℕ → ℚ :=
  if interval ≤ 0 then hist
  else [(1 : ℚ)/2, 1, 2].foldl (fun h m => addVote h (60 / interval * m)) hist

/-- The tempo histogram (lines 468-483), zero-initialized. -/
def bpmHistogram (beats : List ℚ) : ℕ → ℚ :=
  (bpmIntervals beats).foldl voteInterval (fun _ => 0)

/-- The smoothed histogram (lines 486-490): 5-tap kernel `(1,2,3,2,1)/9` on
the interior bins; the edge bins stay zero. -/
def smoothedHistogram (hist : ℕ → ℚ) (i : ℕ) : ℚ :=
  if 2 ≤ i ∧ i < bpmNumBins - 2 then
    (hist (i - 2) + hist (i - 1) * 2 + hist i * 3 + hist (i + 1) * 2 + hist (i + 2)) / 9
  else 0

/-- The peak scan (lines 493-500): first bin with a strictly larger smoothed
value than any seen before, starting from `(maxBin, maxValue) = (0, 0)`. -/
def bpmPeakBin (sm : ℕ → ℚ) : ℕ × ℚ :=
  (List.range bpmNumBins).foldl (fun acc i => if acc.2 < sm i then (i, sm i) else acc) (0, 0)

/-- `estimateBPM(beats, duration)` (lines 454-503): fallback 120 below 4
beats, otherwise `Math.round(60 + maxBin * 0.5)`.  (The `duration` argument is
accepted but never read by the source body.) -/
def estimateBPM (beats : List ℚ) (duration : ℚ) : ℤ :=
  if beats.length < 4 then 120
  else jsRound (60 + ((bpmPeakBin (smoothedHistogram (bpmHistogram beats))).1 : ℚ) * (1 / 2))

/- ------------------------------------------------------------------ -/
/- generateWaveform (lines 528-551)                                   -/
/- ------------------------------------------------------------------ -/

/-- The body of the span-minimum scan (line 542): `if (sample < min) min = sample`. -/
def minStep (m x : ℚ) : ℚ := if x < m then x else m

/-- `samplesPerPoint = Math.floor(channelData.length / numPoints)` (line 530). -/
def waveSpp (len n : ℕ) : ℕ := len / n

/-- The (min, max) pair of waveform point `i` (lines 533-547): scan the span
`[start, min(start + samplesPerPoint, len))`, `min` initialized to 1 and `max`
to -1.  The max-scan body (line 543) is `maxStep`. -/
def wavePair (data : ℕ → ℚ) (len n i : ℕ) : ℚ × ℚ :=
  let start := i * waveSpp len n
  let stop := min (start + waveSpp len n) len
  (((List.range' start (stop - start)).map data).foldl minStep 1,
   ((List.range' start (stop - start)).map data).foldl maxStep (-1))

/-- `generateWaveform(audioBuffer, numPoints)` (lines 528-551) on the mono
channel data: output index `2i` holds point `i`'s span minimum and `2i + 1`
its span maximum. -/
def generateWaveform (data : ℕ → ℚ) (len n : ℕ) : List ℚ :=
  (List.range (2 * n)).map (fun k =>
    if k % 2 = 0 then (wavePair data len n (k / 2)).1 else (wavePair data len n (k / 2)).2)

/- ------------------------------------------------------------------ -/
/- Progress reporting: analyzeAudio (lines 157-173)                   -/
/- ------------------------------------------------------------------ -/

/-- The values the band/energy phase passes to the orchestrator's scaled
callback (line 160 with lines 275-277): every 100th frame reports
`0.1 + (frame / numSamples) * 0.4`. -/
def freqProgress (ns : ℕ) : List ℚ :=
  ((List.range ns).filter (fun f => f % 100 = 0)).map
    (fun (f : ℕ) => 1/10 + (f : ℚ) / (ns : ℚ) * (2/5))

/-- The values the beat phase passes to the scaled callback (line 166 with
lines 377-379): every 500th frame reports `0.5 + (frame / numFrames) * 0.4`. -/
def beatProgress (nf : ℕ) : List ℚ :=
  ((List.range nf).filter (fun f => f % 500 = 0)).map
    (fun (f : ℕ) => 1/2 + (f : ℚ) / (nf : ℚ) * (2/5))

/-- The complete sequence of values passed to the progress callback across one
`analyzeAudio` run (lines 157-173): the milestone 0.1, the scaled band/energy
phase, the milestone 0.5, then — only if the beat detector does not throw —
the scaled beat phase, 0.9 and 1.0.  For buffers of fewer than 1024 samples
the source's `numFrames` is negative and `new Float32Array(numFrames)`
(line 331) throws a RangeError before the beat phase reports anything, so the
run aborts right after the 0.5 milestone and the callback never receives 0.9
or 1.0. -/
def progressTrace (len sr : ℕ) : List ℚ :=
  if len < 1024 then
    [1/10] ++ freqProgress (bandNumSamples len sr) ++ [1/2]
  else
    [1/10] ++ freqProgress (bandNumSamples len sr) ++ [1/2]
      ++ beatProgress (beatNumFrames len) ++ [9/10, 1]

/- ------------------------------------------------------------------ -/
/- normalizeArray lemmas and C5                                       -/
/- ------------------------------------------------------------------ -/

/-- A fold whose step always returns either its accumulator or its element
produces either the initial accumulator or a list element. -/
theorem foldl_mem_or {α : Type} (f : α → α → α) (h : ∀ m x, f m x = m ∨ f m x = x)
    (l : List α) (a : α) : l.foldl f a = a ∨ l.foldl f a ∈ l := by
  induction l generalizing a with
  | nil => exact Or.inl rfl
  | cons x xs ih =>
      simp only [List.foldl_cons]
      rcases ih (f a x) with h1 | h1
      · rw [h1]
        rcases h a x with h2 | h2
        · exact Or.inl h2
        · exact Or.inr (by rw [h2]; exact List.mem_cons_self x xs)
      · exact Or.inr (List.mem_cons_of_mem x h1)

theorem maxStep_mem_or (m x : ℚ) : maxStep m x = m ∨ maxStep m x = x := by
  unfold maxStep
  split
  · exact Or.inr rfl
  · exact Or.inl rfl

theorem le_maxStep_left (m x : ℚ) : m ≤ maxStep m x := by
  unfold maxStep
  split
  · exact le_of_lt (by assumption)
  · exact le_refl m

theorem le_maxStep_right (m x : ℚ) : x ≤ maxStep m x := by
  unfold maxStep
  split
  · exact le_refl x
  · exact le_of_not_lt (by assumption)

theorem init_le_foldl_maxStep (l : List ℚ) (a : ℚ) : a ≤ l.foldl maxStep a := by
  induction l generalizing a with
  | nil => exact le_refl a
  | cons x xs ih => exact le_trans (le_maxStep_left a x) (ih (maxStep a x))

theorem mem_le_foldl_maxStep (l : List ℚ) (a x : ℚ) (hx : x ∈ l) :
    x ≤ l.foldl maxStep a := by
  induction l generalizing a with
  | nil => cases hx
  | cons y ys ih =>
      simp only [List.foldl_cons]
      rcases List.mem_cons.mp hx with rfl | h
      · exact le_trans (le_maxStep_right a x) (init_le_foldl_maxStep ys _)
      · exact ih (maxStep a y) h

theorem maxStepN_eq_or (m : ℚ) (x : Option ℚ) :
    maxStepN m x = m ∨ x = some (maxStepN m x) := by
  cases x with
  | none => exact Or.inl rfl
  | some v =>
      by_cases h : m < v
      · right
        have hv : maxStepN m (some v) = v := if_pos h
        rw [hv]
      · left
        exact if_neg h

theorem le_maxStepN_left (m : ℚ) (x : Option ℚ) : m ≤ maxStepN m x := by
  cases x with
  | none => exact le_refl m
  | some v =>
      show m ≤ if m < v then v else m
      split
      · exact le_of_lt (by assumption)
      · exact le_refl m

theorem le_maxStepN_some (m v : ℚ) : v ≤ maxStepN m (some v) := by
  show v ≤ if m < v then v else m
  split
  · exact le_refl v
  · exact le_of_not_lt (by assumption)

theorem init_le_foldl_maxStepN (l : List (Option ℚ)) (a : ℚ) :
    a ≤ l.foldl maxStepN a := by
  induction l generalizing a with
  | nil => exact le_refl a
  | cons x xs ih =>
      simp only [List.foldl_cons]
      exact le_trans (le_maxStepN_left a x) (ih (maxStepN a x))

theorem mem_le_foldl_maxStepN (l : List (Option ℚ)) (a q : ℚ) (hq : some q ∈ l) :
    q ≤ l.foldl maxStepN a := by
  induction l generalizing a with
  | nil => cases hq
  | cons y ys ih =>
      simp only [List.foldl_cons]
      rcases List.mem_cons.mp hq with h | h
      · rw [← h]
        exact le_trans (le_maxStepN_some a q) (init_le_foldl_maxStepN ys _)
      · exact ih (maxStepN a y) h

theorem foldl_maxStepN_mem_or (l : List (Option ℚ)) (a : ℚ) :
    l.foldl maxStepN a = a ∨ some (l.foldl maxStepN a) ∈ l := by
  induction l generalizing a with
  | nil => exact Or.inl rfl
  | cons x xs ih =>
      simp only [List.foldl_cons]
      rcases ih (maxStepN a x) with h1 | h1
      · rw [h1]
        rcases maxStepN_eq_or a x with h2 | h2
        · exact Or.inl h2
        · exact Or.inr (List.mem_cons.mpr (Or.inl h2.symm))
      · exact Or.inr (List.mem_cons_of_mem x h1)

theorem arrayMaxN_nonneg (l : List (Option ℚ)) : 0 ≤ arrayMaxN l :=
  init_le_foldl_maxStepN l 0

theorem mem_le_arrayMaxN (l : List (Option ℚ)) (q : ℚ) (hq : some q ∈ l) :
    q ≤ arrayMaxN l := mem_le_foldl_maxStepN l 0 q hq

theorem arrayMaxN_mem_or (l : List (Option ℚ)) :
    arrayMaxN l = 0 ∨ some (arrayMaxN l) ∈ l := foldl_maxStepN_mem_or l 0

/-- The normalization contract: on a series of NaN-free non-negative values,
`normalizeArray` produces NaN-free values in `[0, 1]`, and the result is
either identically zero or attains the value 1 exactly. -/
theorem normalizeArrayN_spec (l : List (Option ℚ))
    (h : ∀ x ∈ l, ∃ q : ℚ, x = some q ∧ 0 ≤ q) :
    (∀ y ∈ normalizeArrayN l, ∃ q : ℚ, y = some q ∧ 0 ≤ q ∧ q ≤ 1) ∧
    ((∀ y ∈ normalizeArrayN l, y = some 0) ∨ ∃ y ∈ normalizeArrayN l, y = some 1) := by
  unfold normalizeArrayN
  by_cases hm : 0 < arrayMaxN l
  · simp only [hm, if_true]
    constructor
    · intro y hy
      obtain ⟨x, hx, rfl⟩ := List.mem_map.mp hy
      obtain ⟨q, rfl, hq0⟩ := h x hx
      exact ⟨q / arrayMaxN l, rfl, div_nonneg hq0 hm.le,
        (div_le_one hm).mpr (mem_le_arrayMaxN l q hx)⟩
    · right
      have hmem : some (arrayMaxN l) ∈ l := (arrayMaxN_mem_or l).resolve_left (by
        intro h0
        rw [h0] at hm
        exact absurd hm (lt_irrefl 0))
      refine ⟨some (arrayMaxN l / arrayMaxN l), ?_, ?_⟩
      · exact List.mem_map.mpr ⟨some (arrayMaxN l), hmem, rfl⟩
      · rw [div_self hm.ne']
  · simp only [hm, if_false]
    have hz : ∀ y ∈ l, y = some 0 := by
      intro y hy
      obtain ⟨q, rfl, hq0⟩ := h y hy
      have h1 : q ≤ arrayMaxN l := mem_le_arrayMaxN l q hy
      have h2 : arrayMaxN l ≤ 0 := le_of_not_lt hm
      have hq : q = 0 := le_antisymm (h1.trans h2) hq0
      rw [hq]
    refine ⟨?_, Or.inl hz⟩
    intro y hy
    rw [hz y hy]
    exact ⟨0, rfl, le_refl 0, by norm_num⟩

/-- When the sample rate is positive, every real frame of the extractor copies
at least one sample: `copyLen ≥ 1`, so the RMS divisor of line 272 is never
zero. -/
theorem bandCopyLen_pos (len sr f : ℕ) (hsr : 0 < sr) (hf : f < bandNumSamples len sr) :
    1 ≤ bandCopyLen len sr f := by
  have hns : 1 ≤ bandNumSamples len sr := by omega
  have hlen : 1 ≤ len := by
    by_contra h
    have h0 : len = 0 := by omega
    rw [h0] at hns
    simp [bandNumSamples] at hns
  have hmul : bandNumSamples len sr * bandSpf len sr ≤ len := by
    unfold bandSpf
    rw [Nat.mul_comm]
    exact Nat.div_mul_le_self len (bandNumSamples len sr)
  unfold bandCopyLen
  rw [le_min_iff]
  refine ⟨by norm_num, ?_⟩
  rcases Nat.eq_zero_or_pos (bandSpf len sr) with h0 | hpos
  · rw [h0]
    omega
  · have h1 : (f + 1) * bandSpf len sr ≤ bandNumSamples len sr * bandSpf len sr :=
      Nat.mul_le_mul_right _ (by omega)
    have h2 : f * bandSpf len sr + bandSpf len sr = (f + 1) * bandSpf len sr := by ring
    omega

/-- When a band's divisor is nonzero, the band value of every frame is a
number (`some`), and it is non-negative, for any square-root function that is
non-negative on non-negative inputs. -/
theorem bandValue_some_nonneg (cosF sinF window : ℕ → ℚ) (sqrtF : ℚ → ℚ)
    (hsqrt : ∀ x : ℚ, 0 ≤ x → 0 ≤ sqrtF x) (data : ℕ → ℚ) (len sr f low high : ℕ)
    (hdiv : bandDivisor sr low high ≠ 0) :
    ∃ q : ℚ, bandValue cosF sinF window sqrtF data len sr f low high = some q ∧ 0 ≤ q := by
  unfold bandValue
  rw [if_neg hdiv]
  refine ⟨_, rfl, ?_⟩
  apply le_min (by norm_num)
  have hsum : (0 : ℚ) ≤ ((List.range (bandBinEnd sr high + 1 - bandBinStart sr low)).map
      (fun i => bandMagnitude cosF sinF window sqrtF data len sr f
        (bandBinStart sr low + i) ^ 2)).sum := by
    apply List.sum_nonneg
    intro x hx
    obtain ⟨i, _, rfl⟩ := List.mem_map.mp hx
    exact sq_nonneg _
  have harg : (0 : ℚ) ≤ ((List.range (bandBinEnd sr high + 1 - bandBinStart sr low)).map
      (fun i => bandMagnitude cosF sinF window sqrtF data len sr f
        (bandBinStart sr low + i) ^ 2)).sum / bandDivisor sr low high := by
    rcases le_or_lt (bandBinStart sr low) (bandBinEnd sr high) with hle | hlt
    · apply div_nonneg hsum
      unfold bandDivisor
      have h1 : (bandBinStart sr low : ℚ) ≤ (bandBinEnd sr high : ℚ) := by
        exact_mod_cast hle
      linarith
    · have h0 : bandBinEnd sr high + 1 - bandBinStart sr low = 0 := by omega
      rw [h0]
      simp
  have := hsqrt _ harg
  positivity

/-- When a frame's `copyLen` is nonzero, its loudness value is a non-negative
number. -/
theorem energyValue_some_nonneg (sqrtF : ℚ → ℚ)
    (hsqrt : ∀ x : ℚ, 0 ≤ x → 0 ≤ sqrtF x) (data : ℕ → ℚ) (len sr f : ℕ)
    (hcl : bandCopyLen len sr f ≠ 0) :
    ∃ q : ℚ, energyValue sqrtF data len sr f = some q ∧ 0 ≤ q := by
  unfold energyValue
  rw [if_neg hcl]
  refine ⟨_, rfl, ?_⟩
  apply le_min (by norm_num)
  have hsum : (0 : ℚ) ≤ ((List.range (bandCopyLen len sr f)).map
      (fun i => data (f * bandSpf len sr + i) ^ 2)).sum := by
    apply List.sum_nonneg
    intro x hx
    obtain ⟨i, _, rfl⟩ := List.mem_map.mp hx
    exact sq_nonneg _
  have harg : (0 : ℚ) ≤ ((List.range (bandCopyLen len sr f)).map
      (fun i => data (f * bandSpf len sr + i) ^ 2)).sum / (bandCopyLen len sr f : ℚ) :=
    div_nonneg hsum (by positivity)
  have := hsqrt _ harg
  positivity

/-- C5 counterexample: at sample rate 4000 the high band's clamped bin range
is degenerate — `bandBinStart = ⌊2000·2048/4000⌋ = 1024` while the clamp gives
`bandBinEnd = min(10240, 1023) = 1023`, so the divisor `end - start + 1` of
line 262 is zero — and the source stores `Math.min(1, Math.sqrt(0/0)·4) = NaN`
in every frame of the high series, which normalizeArray leaves in place
(NaN > max is false, so the max stays 0 and the divide is skipped).  On a
4000-sample buffer at 4000 Hz the returned `high` series therefore contains
NaN (modelled as `none`), which is not a value in `[0, 1]` — contradicting the
claim as stated. -/
theorem c5_nan_series_cex :
    bandDivisor 4000 2000 20000 = 0 ∧
    none ∈ (analyzeFrequencyAndEnergy (fun _ => 0) (fun _ => 0) (fun _ => 0)
      (fun _ => 0) (fun _ => 0) 4000 4000).high := by
  have hstart : bandBinStart 4000 2000 = 1024 := by
    unfold bandBinStart
    push_cast
    have hc : ⌊(2000 : ℚ) / ((4000 : ℚ) / 2048)⌋ = 1024 := by
      rw [Int.floor_eq_iff]
      constructor <;> norm_num
    rw [hc]
    decide
  have hstop : bandBinEnd 4000 20000 = 1023 := by
    unfold bandBinEnd
    push_cast
    have hc : ⌈(20000 : ℚ) / ((4000 : ℚ) / 2048)⌉ = 10240 := by
      rw [Int.ceil_eq_iff]
      constructor <;> norm_num
    rw [hc]
    decide
  have hdiv0 : bandDivisor 4000 2000 20000 = 0 := by
    unfold bandDivisor
    rw [hstart, hstop]
    norm_num
  have hnone : ∀ f, bandValue (fun _ => 0) (fun _ => 0) (fun _ => 0) (fun _ => 0)
      (fun _ => 0) 4000 4000 f 2000 20000 = none := by
    intro f
    unfold bandValue
    rw [if_pos hdiv0]
  have hns : 0 < bandNumSamples 4000 4000 := by decide
  have hmax : arrayMaxN ((List.range (bandNumSamples 4000 4000)).map
      (fun f => bandValue (fun _ => 0) (fun _ => 0) (fun _ => 0) (fun _ => 0)
        (fun _ => 0) 4000 4000 f 2000 20000)) = 0 := by
    unfold arrayMaxN
    apply foldl_fixed
    intro x hx
    obtain ⟨f, _, rfl⟩ := List.mem_map.mp hx
    rw [hnone f]
    rfl
  refine ⟨hdiv0, ?_⟩
  simp only [analyzeFrequencyAndEnergy]
  unfold normalizeArrayN
  rw [if_neg (by rw [hmax]; exact lt_irrefl 0)]
  exact List.mem_map.mpr ⟨0, List.mem_range.mpr hns, hnone 0⟩

/-- C5 (amended): after analysis with a positive sample rate, and provided no
band's clamped bin range is degenerate (no `bandDivisor` is zero — the NaN
path exhibited by the counterexample, reachable e.g. for the high band at
sample rate 4000), every one of the five series (sub, bass, mid, high, energy)
has all values numeric and in `[0, 1]`, and each series either is identically
zero or contains a value exactly equal to 1; when a series' maximum is not
positive the normalization divide is skipped, so no division by zero occurs
there. -/
theorem c5_normalized_series (cosF sinF window : ℕ → ℚ) (sqrtF : ℚ → ℚ)
    (hsqrt : ∀ x : ℚ, 0 ≤ x → 0 ≤ sqrtF x) (data : ℕ → ℚ) (len sr : ℕ) (hsr : 0 < sr)
    (hsub : bandDivisor sr 20 60 ≠ 0) (hbass : bandDivisor sr 60 250 ≠ 0)
    (hmid : bandDivisor sr 250 2000 ≠ 0) (hhigh : bandDivisor sr 2000 20000 ≠ 0) :
    ∀ series ∈ [(analyzeFrequencyAndEnergy cosF sinF window sqrtF data len sr).sub,
      (analyzeFrequencyAndEnergy cosF sinF window sqrtF data len sr).bass,
      (analyzeFrequencyAndEnergy cosF sinF window sqrtF data len sr).mid,
      (analyzeFrequencyAndEnergy cosF sinF window sqrtF data len sr).high,
      (analyzeFrequencyAndEnergy cosF sinF window sqrtF data len sr).energy],
      (∀ v ∈ series, ∃ q : ℚ, v = some q ∧ 0 ≤ q ∧ q ≤ 1) ∧
      ((∀ v ∈ series, v = some 0) ∨ ∃ v ∈ series, v = some 1) := by
  intro series hser
  have hband : ∀ low high : ℕ, bandDivisor sr low high ≠ 0 →
      series = normalizeArrayN ((List.range (bandNumSamples len sr)).map
        (fun f => bandValue cosF sinF window sqrtF data len sr f low high)) →
      (∀ v ∈ series, ∃ q : ℚ, v = some q ∧ 0 ≤ q ∧ q ≤ 1) ∧
      ((∀ v ∈ series, v = some 0) ∨ ∃ v ∈ series, v = some 1) := by
    intro low high hdiv hrfl
    rw [hrfl]
    apply normalizeArrayN_spec
    intro x hx
    obtain ⟨fr, _, rfl⟩ := List.mem_map.mp hx
    exact bandValue_some_nonneg cosF sinF window sqrtF hsqrt data len sr fr low high hdiv
  simp only [analyzeFrequencyAndEnergy, List.mem_cons, List.not_mem_nil, or_false] at hser
  rcases hser with h | h | h | h | h
  · exact hband 20 60 hsub h
  · exact hband 60 250 hbass h
  · exact hband 250 2000 hmid h
  · exact hband 2000 20000 hhigh h
  · rw [h]
    apply normalizeArrayN_spec
    intro x hx
    obtain ⟨fr, hfr, rfl⟩ := List.mem_map.mp hx
    have hcl : bandCopyLen len sr fr ≠ 0 := by
      have := bandCopyLen_pos len sr fr hsr (List.mem_range.mp hfr)
      omega
    exact energyValue_some_nonneg sqrtF hsqrt data len sr fr hcl

/-- Witness for the amended C5 on the empty buffer at 44100 Hz: all four band
bin ranges are non-degenerate there, and every series is empty. -/
theorem c5_normalized_series_witness :
    0 < 44100 ∧
    (bandDivisor 44100 20 60 ≠ 0 ∧ bandDivisor 44100 60 250 ≠ 0 ∧
     bandDivisor 44100 250 2000 ≠ 0 ∧ bandDivisor 44100 2000 20000 ≠ 0) ∧
    ∀ series ∈ [(analyzeFrequencyAndEnergy (fun _ => 0) (fun _ => 0) (fun _ => 0)
        (fun _ => 0) (fun _ => 0) 0 44100).sub,
      (analyzeFrequencyAndEnergy (fun _ => 0) (fun _ => 0) (fun _ => 0)
        (fun _ => 0) (fun _ => 0) 0 44100).bass,
      (analyzeFrequencyAndEnergy (fun _ => 0) (fun _ => 0) (fun _ => 0)
        (fun _ => 0) (fun _ => 0) 0 44100).mid,
      (analyzeFrequencyAndEnergy (fun _ => 0) (fun _ => 0) (fun _ => 0)
        (fun _ => 0) (fun _ => 0) 0 44100).high,
      (analyzeFrequencyAndEnergy (fun _ => 0) (fun _ => 0) (fun _ => 0)
        (fun _ => 0) (fun _ => 0) 0 44100).energy],
      (∀ v ∈ series, ∃ q : ℚ, v = some q ∧ 0 ≤ q ∧ q ≤ 1) ∧
      ((∀ v ∈ series, v = some 0) ∨ ∃ v ∈ series, v = some 1) := by
  have h1 : bandBinStart 44100 20 = 0 := by
    unfold bandBinStart
    push_cast
    have hc : ⌊(20 : ℚ) / ((44100 : ℚ) / 2048)⌋ = 0 := by
      rw [Int.floor_eq_iff]
      constructor <;> norm_num
    rw [hc]
    decide
  have h2 : bandBinEnd 44100 60 = 3 := by
    unfold bandBinEnd
    push_cast
    have hc : ⌈(60 : ℚ) / ((44100 : ℚ) / 2048)⌉ = 3 := by
      rw [Int.ceil_eq_iff]
      constructor <;> norm_num
    rw [hc]
    decide
  have h3 : bandBinStart 44100 60 = 2 := by
    unfold bandBinStart
    push_cast
    have hc : ⌊(60 : ℚ) / ((44100 : ℚ) / 2048)⌋ = 2 := by
      rw [Int.floor_eq_iff]
      constructor <;> norm_num
    rw [hc]
    decide
  have h4 : bandBinEnd 44100 250 = 12 := by
    unfold bandBinEnd
    push_cast
    have hc : ⌈(250 : ℚ) / ((44100 : ℚ) / 2048)⌉ = 12 := by
      rw [Int.ceil_eq_iff]
      constructor <;> norm_num
    rw [hc]
    decide
  have h5 : bandBinStart 44100 250 = 11 := by
    unfold bandBinStart
    push_cast
    have hc : ⌊(250 : ℚ) / ((44100 : ℚ) / 2048)⌋ = 11 := by
      rw [Int.floor_eq_iff]
      constructor <;> norm_num
    rw [hc]
    decide
  have h6 : bandBinEnd 44100 2000 = 93 := by
    unfold bandBinEnd
    push_cast
    have hc : ⌈(2000 : ℚ) / ((44100 : ℚ) / 2048)⌉ = 93 := by
      rw [Int.ceil_eq_iff]
      constructor <;> norm_num
    rw [hc]
    decide
  have h7 : bandBinStart 44100 2000 = 92 := by
    unfold bandBinStart
    push_cast
    have hc : ⌊(2000 : ℚ) / ((44100 : ℚ) / 2048)⌋ = 92 := by
      rw [Int.floor_eq_iff]
      constructor <;> norm_num
    rw [hc]
    decide
  have h8 : bandBinEnd 44100 20000 = 929 := by
    unfold bandBinEnd
    push_cast
    have hc : ⌈(20000 : ℚ) / ((44100 : ℚ) / 2048)⌉ = 929 := by
      rw [Int.ceil_eq_iff]
      constructor <;> norm_num
    rw [hc]
    decide
  have hd1 : bandDivisor 44100 20 60 ≠ 0 := by
    unfold bandDivisor
    rw [h1, h2]
    norm_num
  have hd2 : bandDivisor 44100 60 250 ≠ 0 := by
    unfold bandDivisor
    rw [h3, h4]
    norm_num
  have hd3 : bandDivisor 44100 250 2000 ≠ 0 := by
    unfold bandDivisor
    rw [h5, h6]
    norm_num
  have hd4 : bandDivisor 44100 2000 20000 ≠ 0 := by
    unfold bandDivisor
    rw [h7, h8]
    norm_num
  exact ⟨by norm_num, ⟨hd1, hd2, hd3, hd4⟩,
    c5_normalized_series (fun _ => 0) (fun _ => 0) (fun _ => 0) (fun _ => 0)
      (fun _ _ => le_refl 0) (fun _ => 0) 0 44100 (by norm_num) hd1 hd2 hd3 hd4⟩

/- ------------------------------------------------------------------ -/
/- C6 and C10: the BPM estimator                                      -/
/- ------------------------------------------------------------------ -/

theorem bpmNumBins_eq : bpmNumBins = 280 := by
  unfold bpmNumBins
  norm_num
  rfl

/-- The peak scan returns a bin index below the histogram size. -/
theorem bpmPeakBin_lt (sm : ℕ → ℚ) : (bpmPeakBin sm).1 < bpmNumBins := by
  unfold bpmPeakBin
  have key : ∀ (l : List ℕ) (acc : ℕ × ℚ), acc.1 < bpmNumBins →
      (∀ i ∈ l, i < bpmNumBins) →
      ((l.foldl (fun acc i => if acc.2 < sm i then (i, sm i) else acc) acc).1 < bpmNumBins) := by
    intro l
    induction l with
    | nil => intro acc h _; exact h
    | cons x xs ih =>
        intro acc h hall
        simp only [List.foldl_cons]
        apply ih
        · by_cases hx : acc.2 < sm x
          · simp only [hx, if_true]
            exact hall x (List.mem_cons_self x xs)
          · simp only [hx, if_false]
            exact h
        · intro i hi
          exact hall i (List.mem_cons_of_mem x hi)
  apply key
  · rw [bpmNumBins_eq]
    norm_num
  · intro i hi
    exact List.mem_range.mp hi

/-- C6: the BPM estimator always returns a value in `[60, 200]`, and with
fewer than 4 beats it returns exactly 120. -/
theorem c6_bpm_range (beats : List ℚ) (duration : ℚ) :
    (60 ≤ estimateBPM beats duration ∧ estimateBPM beats duration ≤ 200) ∧
    (beats.length < 4 → estimateBPM beats duration = 120) := by
  unfold estimateBPM
  by_cases h4 : beats.length < 4
  · rw [if_pos h4]
    refine ⟨⟨by norm_num, by norm_num⟩, fun _ => rfl⟩
  · rw [if_neg h4]
    refine ⟨⟨?_, ?_⟩, fun h => absurd h h4⟩
    · unfold jsRound
      rw [Int.le_floor]
      have h0 : (0 : ℚ) ≤ ((bpmPeakBin (smoothedHistogram (bpmHistogram beats))).1 : ℚ) * (1 / 2) := by
        positivity
      push_cast
      linarith
    · unfold jsRound
      have hp : (bpmPeakBin (smoothedHistogram (bpmHistogram beats))).1 ≤ 279 := by
        have := bpmPeakBin_lt (smoothedHistogram (bpmHistogram beats))
        rw [bpmNumBins_eq] at this
        omega
      have hq : (60 : ℚ) + ((bpmPeakBin (smoothedHistogram (bpmHistogram beats))).1 : ℚ) * (1 / 2)
          + 1 / 2 ≤ 200 := by
        have : ((bpmPeakBin (smoothedHistogram (bpmHistogram beats))).1 : ℚ) ≤ 279 := by
          exact_mod_cast hp
        linarith
      calc ⌊(60 : ℚ) + ((bpmPeakBin (smoothedHistogram (bpmHistogram beats))).1 : ℚ) * (1 / 2)
            + 1 / 2⌋ ≤ ⌊(200 : ℚ)⌋ := Int.floor_le_floor hq
        _ = 200 := by norm_num

/-- Witness for C6 on an empty beat list. -/
theorem c6_bpm_range_witness :
    (60 ≤ estimateBPM [] 0 ∧ estimateBPM [] 0 ≤ 200) ∧
    (([] : List ℚ).length < 4 → estimateBPM [] 0 = 120) :=
  c6_bpm_range [] 0

/-- C10: with at least 4 beats, if every inter-beat interval fails to place a
vote — neither its tempo nor the half or double tempo lands in `[60, 200]` —
then the histogram stays all-zero, the peak scan keeps its initial bin 0, and
the estimator returns `round(60 + 0·0.5) = 60`. -/
theorem c10_empty_histogram_returns_60 (beats : List ℚ) (duration : ℚ)
    (h4 : 4 ≤ beats.length)
    (hout : ∀ d ∈ bpmIntervals beats, 0 < d →
      ∀ m ∈ [(1 : ℚ)/2, 1, 2], ¬(60 ≤ 60 / d * m ∧ 60 / d * m ≤ 200)) :
    estimateBPM beats duration = 60 := by
  have hhist : bpmHistogram beats = fun _ => 0 := by
    unfold bpmHistogram
    apply foldl_fixed
    intro d hd
    unfold voteInterval
    by_cases hdpos : d ≤ 0
    · simp only [hdpos, if_true]
    · simp only [hdpos, if_false]
      apply foldl_fixed
      intro m hm
      unfold addVote
      have hnv := hout d hd (lt_of_not_le hdpos) m hm
      rw [if_neg hnv]
  have hsm : ∀ i, smoothedHistogram (bpmHistogram beats) i = 0 := by
    intro i
    unfold smoothedHistogram
    rw [hhist]
    split
    · norm_num
    · rfl
  have hpeak : bpmPeakBin (smoothedHistogram (bpmHistogram beats)) = (0, 0) := by
    unfold bpmPeakBin
    apply foldl_fixed
    intro i _
    rw [hsm i]
    norm_num
  unfold estimateBPM
  have h4' : ¬ beats.length < 4 := by omega
  simp only [h4', if_false]
  rw [hpeak]
  unfold jsRound
  norm_num

/-- Witness for C10: four beats 3 s apart give tempo candidates 10, 20 and
40 BPM, all outside `[60, 200]`, so every vote is discarded and the estimator
returns 60. -/
theorem c10_empty_histogram_returns_60_witness :
    4 ≤ ([0, 3, 6, 9] : List ℚ).length ∧
    (∀ d ∈ bpmIntervals [0, 3, 6, 9], 0 < d →
      ∀ m ∈ [(1 : ℚ)/2, 1, 2], ¬(60 ≤ 60 / d * m ∧ 60 / d * m ≤ 200)) ∧
    estimateBPM [0, 3, 6, 9] 9 = 60 := by
  have hout : ∀ d ∈ bpmIntervals [0, 3, 6, 9], 0 < d →
      ∀ m ∈ [(1 : ℚ)/2, 1, 2], ¬(60 ≤ 60 / d * m ∧ 60 / d * m ≤ 200) := by
    have hint : bpmIntervals ([0, 3, 6, 9] : List ℚ) = [3, 3, 3] := by
      unfold bpmIntervals
      norm_num [List.range_succ]
    rw [hint]
    intro d hd _ m hm
    fin_cases hd <;> fin_cases hm <;> norm_num
  exact ⟨by norm_num, hout,
    c10_empty_histogram_returns_60 [0, 3, 6, 9] 9 (by norm_num) hout⟩

/- ------------------------------------------------------------------ -/
/- C7: beat timelines                                                 -/
/- ------------------------------------------------------------------ -/

/-- `findPeaks` pushes strictly increasing indices, so with a positive frame
duration the returned timestamps are strictly increasing. -/
theorem findPeaks_sorted (signal : ℕ → ℚ) (len : ℕ) (fd thr : ℚ) (hfd : 0 < fd) :
    List.Pairwise (· < ·) (findPeaks signal len fd thr) := by
  unfold findPeaks
  refine List.Pairwise.map _ (fun a b hab => ?_)
    (List.Pairwise.filter _ (List.pairwise_lt_range' 20 (len - 20 - 20)))
  exact mul_lt_mul_of_pos_right (by exact_mod_cast hab) hfd

/-- The deduplication pass keeps only beats more than 0.05 s after the
previously kept one, so consecutive kept entries differ by more than 1/20. -/
theorem dedupBeats_chain (l : List ℚ) :
    List.Chain' (fun a b : ℚ => 1/20 < b - a) (dedupBeats l) := by
  unfold dedupBeats
  have key : ∀ (m acc : List ℚ),
      List.Chain' (fun a b : ℚ => 1/20 < b - a) acc →
      List.Chain' (fun a b : ℚ => 1/20 < b - a)
        (m.foldl (fun acc b =>
          match acc.getLast? with
          | none => acc ++ [b]
          | some last => if 1/20 < b - last then acc ++ [b] else acc) acc) := by
    intro m
    induction m with
    | nil => intro acc h; exact h
    | cons b bs ih =>
        intro acc h
        simp only [List.foldl_cons]
        apply ih
        cases hlast : acc.getLast? with
        | none =>
            have hnil : acc = [] := List.getLast?_eq_none_iff.mp hlast
            subst hnil
            exact List.chain'_singleton b
        | some last =>
            simp only [hlast]
            by_cases hgap : 1/20 < b - last
            · rw [if_pos hgap, List.chain'_append]
              refine ⟨h, List.chain'_singleton b, ?_⟩
              intro x hx y hy
              rw [hlast] at hx
              simp only [Option.mem_def, Option.some.injEq] at hx
              simp only [List.head?_cons, Option.mem_def, Option.some.injEq] at hy
              subst hx
              subst hy
              exact hgap
            · rw [if_neg hgap]
              exact h
  exact key l [] List.chain'_nil

/-- Gap-separated lists are pairwise gap-separated: the relation is
transitive. -/
theorem dedupBeats_gap (l : List ℚ) :
    List.Pairwise (fun a b : ℚ => 1/20 < b - a) (dedupBeats l) := by
  haveI : IsTrans ℚ (fun a b : ℚ => 1/20 < b - a) :=
    ⟨fun a b c h1 h2 => by
      have g1 : 1/20 < b - a := h1
      have g2 : 1/20 < c - b := h2
      show (1 : ℚ)/20 < c - a
      linarith⟩
  exact List.chain'_iff_pairwise.mp (dedupBeats_chain l)

/-- C7: the four returned beat timelines are strictly increasing, and in the
deduplicated `all` timeline any two entries are more than 0.05 s apart. -/
theorem c7_beat_timelines (cosF sinF window : ℕ → ℚ) (sqrtF : ℚ → ℚ) (data : ℕ → ℚ)
    (len sr : ℕ) (hsr : 0 < sr) :
    List.Pairwise (· < ·) (detectBeats cosF sinF window sqrtF data len sr).kicks ∧
    List.Pairwise (· < ·) (detectBeats cosF sinF window sqrtF data len sr).snares ∧
    List.Pairwise (· < ·) (detectBeats cosF sinF window sqrtF data len sr).hihats ∧
    List.Pairwise (· < ·) (detectBeats cosF sinF window sqrtF data len sr).all ∧
    List.Pairwise (fun a b : ℚ => 1/20 < b - a)
      (detectBeats cosF sinF window sqrtF data len sr).all := by
  have hfd : (0 : ℚ) < 512 / (sr : ℚ) := by
    apply div_pos (by norm_num)
    exact_mod_cast hsr
  simp only [detectBeats]
  refine ⟨findPeaks_sorted _ _ _ _ hfd, findPeaks_sorted _ _ _ _ hfd,
    findPeaks_sorted _ _ _ _ hfd, ?_, dedupBeats_gap _⟩
  refine List.Pairwise.imp ?_ (dedupBeats_gap _)
  intro a b h
  linarith

/-- Witness for C7 on the empty buffer at 1 Hz: no frames, so all four
timelines are empty. -/
theorem c7_beat_timelines_witness :
    0 < 1 ∧
    (List.Pairwise (· < ·)
        (detectBeats (fun _ => 0) (fun _ => 0) (fun _ => 0) (fun _ => 0) (fun _ => 0) 0 1).kicks ∧
      List.Pairwise (· < ·)
        (detectBeats (fun _ => 0) (fun _ => 0) (fun _ => 0) (fun _ => 0) (fun _ => 0) 0 1).snares ∧
      List.Pairwise (· < ·)
        (detectBeats (fun _ => 0) (fun _ => 0) (fun _ => 0) (fun _ => 0) (fun _ => 0) 0 1).hihats ∧
      List.Pairwise (· < ·)
        (detectBeats (fun _ => 0) (fun _ => 0) (fun _ => 0) (fun _ => 0) (fun _ => 0) 0 1).all ∧
      List.Pairwise (fun a b : ℚ => 1/20 < b - a)
        (detectBeats (fun _ => 0) (fun _ => 0) (fun _ => 0) (fun _ => 0) (fun _ => 0) 0 1).all) :=
  ⟨Nat.one_pos,
   c7_beat_timelines (fun _ => 0) (fun _ => 0) (fun _ => 0) (fun _ => 0) (fun _ => 0) 0 1
     Nat.one_pos⟩

/- ------------------------------------------------------------------ -/
/- C8: generateWaveform                                               -/
/- ------------------------------------------------------------------ -/

theorem minStep_mem_or (m x : ℚ) : minStep m x = m ∨ minStep m x = x := by
  unfold minStep
  split
  · exact Or.inr rfl
  · exact Or.inl rfl

theorem minStep_le_left (m x : ℚ) : minStep m x ≤ m := by
  unfold minStep
  split
  · exact le_of_lt (by assumption)
  · exact le_refl m

theorem minStep_le_right (m x : ℚ) : minStep m x ≤ x := by
  unfold minStep
  split
  · exact le_refl x
  · exact le_of_not_lt (by assumption)

theorem foldl_minStep_le_init (l : List ℚ) (a : ℚ) : l.foldl minStep a ≤ a := by
  induction l generalizing a with
  | nil => exact le_refl a
  | cons x xs ih =>
      simp only [List.foldl_cons]
      exact le_trans (ih (minStep a x)) (minStep_le_left a x)

theorem foldl_minStep_le_mem (l : List ℚ) (a x : ℚ) (hx : x ∈ l) :
    l.foldl minStep a ≤ x := by
  induction l generalizing a with
  | nil => cases hx
  | cons y ys ih =>
      simp only [List.foldl_cons]
      rcases List.mem_cons.mp hx with rfl | h
      · exact le_trans (foldl_minStep_le_init ys _) (minStep_le_right a x)
      · exact ih (minStep a y) h

/-- C8 counterexample: `generateWaveform` on the all-zero single-sample buffer
with `numPoints = 2` makes `samplesPerPoint = 0`, so every span is empty and
every pair keeps the sentinel initializers `(min, max) = (1, -1)`: the output
is `[1, -1, 1, -1]`, the recorded min exceeds the recorded max, and the pairs
of this silence input are not `(0, 0)` — contradicting the claim as stated. -/
theorem c8_empty_span_cex :
    generateWaveform (fun _ => 0) 1 2 = [1, -1, 1, -1] ∧
    wavePair (fun _ => 0) 1 2 0 = (1, -1) ∧
    ¬((wavePair (fun _ => 0) 1 2 0).1 ≤ (wavePair (fun _ => 0) 1 2 0).2) ∧
    wavePair (fun _ => 0) 1 2 0 ≠ (0, 0) := by
  have hp : ∀ i, wavePair (fun _ => (0 : ℚ)) 1 2 i = (1, -1) := by
    intro i
    unfold wavePair waveSpp
    norm_num
  refine ⟨?_, hp 0, ?_, ?_⟩
  · unfold generateWaveform
    have h4 : 2 * 2 = 4 := by norm_num
    rw [h4]
    simp only [List.range_succ, List.range_zero, List.nil_append, List.cons_append,
      List.map_append, List.map_cons, List.map_nil, hp]
    norm_num
  · rw [hp 0]
    norm_num
  · rw [hp 0]
    intro hc
    rw [Prod.ext_iff] at hc
    exact absurd hc.1 (by norm_num)

/-- C8 (amended): `generateWaveform(buffer, n)` always returns exactly `2n`
values; whenever `n ≤ len` (each span nonempty, i.e. `samplesPerPoint ≥ 1`)
every pair satisfies `min ≤ max`, and on an all-zero buffer every pair is
`(0, 0)`; when `len < n` the empty spans instead keep the sentinel pair
`(1, -1)`. -/
theorem c8_waveform_pairs (data : ℕ → ℚ) (len n : ℕ) (hn : 1 ≤ n) :
    (generateWaveform data len n).length = 2 * n ∧
    (n ≤ len → ∀ i < n, (wavePair data len n i).1 ≤ (wavePair data len n i).2) ∧
    (n ≤ len → (∀ j < len, data j = 0) → ∀ i < n, wavePair data len n i = (0, 0)) := by
  have hspan : n ≤ len → ∀ i < n,
      i * waveSpp len n ∈ List.range' (i * waveSpp len n)
        (min (i * waveSpp len n + waveSpp len n) len - i * waveSpp len n) ∧
      ∀ j ∈ List.range' (i * waveSpp len n)
        (min (i * waveSpp len n + waveSpp len n) len - i * waveSpp len n), j < len := by
    intro hle i hi
    have hspp : 1 ≤ waveSpp len n := (Nat.one_le_div_iff (by omega)).mpr hle
    have hstop : i * waveSpp len n + waveSpp len n ≤ len := by
      have h1 : (i + 1) * waveSpp len n ≤ n * waveSpp len n :=
        Nat.mul_le_mul_right _ (by omega)
      have h2 : n * waveSpp len n ≤ len := by
        unfold waveSpp
        rw [Nat.mul_comm]
        exact Nat.div_mul_le_self len n
      have h3 : (i + 1) * waveSpp len n = i * waveSpp len n + waveSpp len n := by ring
      omega
    have hmin : min (i * waveSpp len n + waveSpp len n) len =
        i * waveSpp len n + waveSpp len n := min_eq_left hstop
    constructor
    · rw [List.mem_range'_1, hmin]
      omega
    · intro j hj
      rw [List.mem_range'_1, hmin] at hj
      omega
  refine ⟨?_, ?_, ?_⟩
  · unfold generateWaveform
    rw [List.length_map, List.length_range]
  · intro hle i hi
    obtain ⟨hmem, _⟩ := hspan hle i hi
    have hmemmap : data (i * waveSpp len n) ∈
        (List.range' (i * waveSpp len n)
          (min (i * waveSpp len n + waveSpp len n) len - i * waveSpp len n)).map data :=
      List.mem_map_of_mem data hmem
    unfold wavePair
    exact le_trans (foldl_minStep_le_mem _ _ _ hmemmap) (mem_le_foldl_maxStep _ _ _ hmemmap)
  · intro hle hzero i hi
    obtain ⟨hmem, hbound⟩ := hspan hle i hi
    have hall : ∀ x ∈ (List.range' (i * waveSpp len n)
        (min (i * waveSpp len n + waveSpp len n) len - i * waveSpp len n)).map data, x = 0 := by
      intro x hx
      obtain ⟨j, hj, rfl⟩ := List.mem_map.mp hx
      exact hzero j (hbound j hj)
    have hmemmap : data (i * waveSpp len n) ∈
        (List.range' (i * waveSpp len n)
          (min (i * waveSpp len n + waveSpp len n) len - i * waveSpp len n)).map data :=
      List.mem_map_of_mem data hmem
    have hzmem : (0 : ℚ) ∈ (List.range' (i * waveSpp len n)
        (min (i * waveSpp len n + waveSpp len n) len - i * waveSpp len n)).map data := by
      have := hall _ hmemmap
      rw [this] at hmemmap
      exact hmemmap
    unfold wavePair
    rw [Prod.ext_iff]
    constructor
    · have hle0 : _ ≤ (0 : ℚ) := foldl_minStep_le_mem _ 1 0 hzmem
      rcases foldl_mem_or minStep minStep_mem_or
          ((List.range' (i * waveSpp len n)
            (min (i * waveSpp len n + waveSpp len n) len - i * waveSpp len n)).map data) 1
        with h1 | h1
      · rw [h1] at hle0
        norm_num at hle0
      · exact hall _ h1
    · have hge0 : (0 : ℚ) ≤ _ := mem_le_foldl_maxStep _ (-1) 0 hzmem
      rcases foldl_mem_or maxStep maxStep_mem_or
          ((List.range' (i * waveSpp len n)
            (min (i * waveSpp len n + waveSpp len n) len - i * waveSpp len n)).map data) (-1)
        with h1 | h1
      · rw [h1] at hge0
        norm_num at hge0
      · exact hall _ h1

/-- Witness for the amended C8 on a 2-sample all-zero buffer with one point. -/
theorem c8_waveform_pairs_witness :
    1 ≤ 1 ∧
    ((generateWaveform (fun _ => 0) 2 1).length = 2 * 1 ∧
     (1 ≤ 2 → ∀ i < 1, (wavePair (fun _ => 0) 2 1 i).1 ≤ (wavePair (fun _ => 0) 2 1 i).2) ∧
     (1 ≤ 2 → (∀ j < 2, (fun _ => (0 : ℚ)) j = 0) → ∀ i < 1,
        wavePair (fun _ => 0) 2 1 i = (0, 0))) :=
  ⟨le_refl 1, c8_waveform_pairs (fun _ => 0) 2 1 (le_refl 1)⟩

/- ------------------------------------------------------------------ -/
/- C9: the progress trace                                             -/
/- ------------------------------------------------------------------ -/

theorem div_cast_le_div_cast (a b ns : ℕ) (h : a ≤ b) :
    (a : ℚ) / (ns : ℚ) ≤ (b : ℚ) / (ns : ℚ) := by
  rcases Nat.eq_zero_or_pos ns with h0 | hpos
  · subst h0
    simp
  · have hns : (0 : ℚ) < (ns : ℚ) := by exact_mod_cast hpos
    exact (div_le_div_iff_of_pos_right hns).mpr (by exact_mod_cast h)

/-- Values reported during the band/energy phase stay in `[0.1, 0.5)`. -/
theorem freqProgress_bounds (ns : ℕ) :
    ∀ v ∈ freqProgress ns, 1/10 ≤ v ∧ v < 1/2 := by
  intro v hv
  unfold freqProgress at hv
  obtain ⟨f, hf, rfl⟩ := List.mem_map.mp hv
  have hfns : f < ns := List.mem_range.mp (List.mem_of_mem_filter hf)
  have hns : (0 : ℚ) < (ns : ℚ) := by
    have h1 : 0 < ns := by omega
    exact_mod_cast h1
  have h0 : (0 : ℚ) ≤ (f : ℚ) / (ns : ℚ) := div_nonneg (by positivity) hns.le
  have h1 : (f : ℚ) / (ns : ℚ) < 1 := (div_lt_one hns).mpr (by exact_mod_cast hfns)
  constructor
  · linarith
  · linarith

theorem freqProgress_sorted (ns : ℕ) : List.Pairwise (· ≤ ·) (freqProgress ns) := by
  unfold freqProgress
  refine List.Pairwise.map _ (fun a b hab => ?_)
    (List.Pairwise.filter _ (List.pairwise_lt_range ns))
  have := div_cast_le_div_cast a b ns (le_of_lt hab)
  linarith

/-- Values reported during the beat phase stay in `[0.5, 0.9)`. -/
theorem beatProgress_bounds (nf : ℕ) :
    ∀ v ∈ beatProgress nf, 1/2 ≤ v ∧ v < 9/10 := by
  intro v hv
  unfold beatProgress at hv
  obtain ⟨f, hf, rfl⟩ := List.mem_map.mp hv
  have hfnf : f < nf := List.mem_range.mp (List.mem_of_mem_filter hf)
  have hnf : (0 : ℚ) < (nf : ℚ) := by
    have h1 : 0 < nf := by omega
    exact_mod_cast h1
  have h0 : (0 : ℚ) ≤ (f : ℚ) / (nf : ℚ) := div_nonneg (by positivity) hnf.le
  have h1 : (f : ℚ) / (nf : ℚ) < 1 := (div_lt_one hnf).mpr (by exact_mod_cast hfnf)
  constructor
  · linarith
  · linarith

theorem beatProgress_sorted (nf : ℕ) : List.Pairwise (· ≤ ·) (beatProgress nf) := by
  unfold beatProgress
  refine List.Pairwise.map _ (fun a b hab => ?_)
    (List.Pairwise.filter _ (List.pairwise_lt_range nf))
  have := div_cast_le_div_cast a b nf (le_of_lt hab)
  linarith

/-- C9 counterexample: a valid 441-sample buffer (10 ms at 44100 Hz — not the
spec's empty-buffer precondition violation) makes the source's `numFrames`
negative, and `new Float32Array(numFrames)` (line 331) throws a RangeError
before any beat frame is processed, so the run aborts right after the 0.5
milestone: the callback receives exactly 0.1 and 0.5 and never the milestones
0.9 and 1.0 — contradicting the claim as stated. -/
theorem c9_aborted_run_cex :
    progressTrace 441 44100 = [1/10, 1/2] ∧
    (9/10 : ℚ) ∉ progressTrace 441 44100 ∧ (1 : ℚ) ∉ progressTrace 441 44100 := by
  have hns : bandNumSamples 441 44100 = 0 := by decide
  have ht : progressTrace 441 44100 = [1/10, 1/2] := by
    unfold progressTrace
    rw [if_pos (by norm_num : (441 : ℕ) < 1024), hns]
    rfl
  refine ⟨ht, ?_, ?_⟩
  · rw [ht]
    intro h
    simp only [List.mem_cons, List.mem_singleton, List.not_mem_nil, or_false] at h
    rcases h with h | h <;> norm_num at h
  · rw [ht]
    intro h
    simp only [List.mem_cons, List.mem_singleton, List.not_mem_nil, or_false] at h
    rcases h with h | h <;> norm_num at h

/-- C9 (amended): across one `analyzeAudio` run with a positive sample rate,
the sequence of values passed to the progress callback lies in `[0, 1]`, is
non-decreasing, and includes the milestones 0.1 and 0.5; the milestones 0.9
and 1.0 are also delivered whenever the buffer holds at least 1024 samples —
on shorter buffers the beat detector throws at its flux-array allocation
(line 331) and the run aborts after 0.5, so 0.9 and 1.0 are never reported. -/
theorem c9_progress_trace (len sr : ℕ) (hsr : 0 < sr) :
    (∀ v ∈ progressTrace len sr, 0 ≤ v ∧ v ≤ 1) ∧
    List.Pairwise (· ≤ ·) (progressTrace len sr) ∧
    (1/10 : ℚ) ∈ progressTrace len sr ∧ (1/2 : ℚ) ∈ progressTrace len sr ∧
    (1024 ≤ len → (9/10 : ℚ) ∈ progressTrace len sr ∧ (1 : ℚ) ∈ progressTrace len sr) := by
  have hA := freqProgress_bounds (bandNumSamples len sr)
  have hB := beatProgress_bounds (beatNumFrames len)
  by_cases hlen : len < 1024
  · have htr : progressTrace len sr =
        [1/10] ++ freqProgress (bandNumSamples len sr) ++ [1/2] := by
      unfold progressTrace
      rw [if_pos hlen]
    rw [htr]
    refine ⟨?_, ?_, ?_, ?_, fun hge => absurd hge (by omega)⟩
    · intro v hv
      have hv' : v = 1/10 ∨ v ∈ freqProgress (bandNumSamples len sr) ∨ v = 1/2 := by
        simp only [List.mem_append, List.mem_cons, List.mem_singleton,
          List.not_mem_nil, or_false] at hv
        tauto
      rcases hv' with rfl | h | rfl
      · norm_num
      · have := hA v h
        constructor <;> linarith [this.1, this.2]
      · norm_num
    · rw [List.append_assoc, List.singleton_append, List.pairwise_cons]
      constructor
      · intro b hb
        rcases List.mem_append.mp hb with h | h
        · exact (hA b h).1
        · simp only [List.mem_singleton] at h
          subst h
          norm_num
      · rw [List.pairwise_append]
        refine ⟨freqProgress_sorted _, List.pairwise_singleton _ _, ?_⟩
        intro a ha b hb
        simp only [List.mem_singleton] at hb
        subst hb
        have := (hA a ha).2
        linarith
    · exact List.mem_append_left _ (List.mem_append_left _ (List.mem_singleton_self _))
    · exact List.mem_append_right _ (List.mem_singleton_self _)
  · have htr : progressTrace len sr =
        [1/10] ++ freqProgress (bandNumSamples len sr) ++ [1/2]
          ++ beatProgress (beatNumFrames len) ++ [9/10, 1] := by
      unfold progressTrace
      rw [if_neg hlen]
    rw [htr]
    refine ⟨?_, ?_, ?_, ?_, fun _ => ⟨?_, ?_⟩⟩
    · intro v hv
      have hv' : v = 1/10 ∨ v ∈ freqProgress (bandNumSamples len sr) ∨ v = 1/2 ∨
          v ∈ beatProgress (beatNumFrames len) ∨ v = 9/10 ∨ v = 1 := by
        simp only [List.mem_append, List.mem_cons, List.mem_singleton,
          List.not_mem_nil, or_false] at hv
        tauto
      rcases hv' with rfl | h | rfl | h | rfl | rfl
      · norm_num
      · have := hA v h
        constructor <;> linarith [this.1, this.2]
      · norm_num
      · have := hB v h
        constructor <;> linarith [this.1, this.2]
      · norm_num
      · norm_num
    · have P5 : List.Pairwise (· ≤ ·) ([9/10, 1] : List ℚ) := by
        rw [List.pairwise_cons]
        constructor
        · intro b hb
          simp only [List.mem_singleton] at hb
          subst hb
          norm_num
        · exact List.pairwise_singleton _ _
      have P4 : List.Pairwise (· ≤ ·)
          (beatProgress (beatNumFrames len) ++ ([9/10, 1] : List ℚ)) := by
        rw [List.pairwise_append]
        refine ⟨beatProgress_sorted _, P5, ?_⟩
        intro a ha b hb
        have h1 := (hB a ha).2
        simp only [List.mem_cons, List.mem_singleton, List.not_mem_nil, or_false] at hb
        rcases hb with rfl | rfl
        · linarith
        · linarith
      have P3 : List.Pairwise (· ≤ ·)
          (((1 : ℚ)/2) :: (beatProgress (beatNumFrames len) ++ ([9/10, 1] : List ℚ))) := by
        rw [List.pairwise_cons]
        refine ⟨?_, P4⟩
        intro b hb
        rcases List.mem_append.mp hb with h | h
        · exact (hB b h).1
        · simp only [List.mem_cons, List.mem_singleton, List.not_mem_nil, or_false] at h
          rcases h with rfl | rfl
          · norm_num
          · norm_num
      have P2 : List.Pairwise (· ≤ ·)
          (freqProgress (bandNumSamples len sr) ++
            (((1 : ℚ)/2) :: (beatProgress (beatNumFrames len) ++ ([9/10, 1] : List ℚ)))) := by
        rw [List.pairwise_append]
        refine ⟨freqProgress_sorted _, P3, ?_⟩
        intro a ha b hb
        have h1 := (hA a ha).2
        rcases List.mem_cons.mp hb with rfl | h
        · linarith
        · rcases List.mem_append.mp h with h2 | h2
          · have := (hB b h2).1
            linarith
          · simp only [List.mem_cons, List.mem_singleton, List.not_mem_nil, or_false] at h2
            rcases h2 with rfl | rfl
            · linarith
            · linarith
      rw [List.append_assoc, List.append_assoc, List.append_assoc,
        List.singleton_append, List.pairwise_cons]
      refine ⟨?_, P2⟩
      intro b hb
      have hb' : b ∈ freqProgress (bandNumSamples len sr) ∨ b = 1/2 ∨
          b ∈ beatProgress (beatNumFrames len) ∨ b = 9/10 ∨ b = 1 := by
        simp only [List.mem_append, List.mem_cons, List.mem_singleton,
          List.not_mem_nil, or_false] at hb
        tauto
      rcases hb' with h | rfl | h | rfl | rfl
      · exact (hA b h).1
      · norm_num
      · have := (hB b h).1
        linarith
      · norm_num
      · norm_num
    · exact List.mem_append_left _ (List.mem_append_left _ (List.mem_append_left _
        (List.mem_append_left _ (List.mem_singleton_self _))))
    · exact List.mem_append_left _ (List.mem_append_left _
        (List.mem_append_right _ (List.mem_singleton_self _)))
    · exact List.mem_append_right _ (List.mem_cons_self _ _)
    · exact List.mem_append_right _ (List.mem_cons_of_mem _ (List.mem_singleton_self _))

/-- Witness for the amended C9 on a one-second 44100 Hz buffer: the run
completes, so all four milestones are delivered. -/
theorem c9_progress_trace_witness :
    0 < 44100 ∧ 1024 ≤ 44100 ∧
    ((∀ v ∈ progressTrace 44100 44100, 0 ≤ v ∧ v ≤ 1) ∧
     List.Pairwise (· ≤ ·) (progressTrace 44100 44100) ∧
     (1/10 : ℚ) ∈ progressTrace 44100 44100 ∧ (1/2 : ℚ) ∈ progressTrace 44100 44100 ∧
     (1024 ≤ 44100 →
       (9/10 : ℚ) ∈ progressTrace 44100 44100 ∧ (1 : ℚ) ∈ progressTrace 44100 44100)) :=
  ⟨by norm_num, by norm_num, c9_progress_trace 44100 44100 (by norm_num)⟩

end AudioAnalyzer
